import Mathlib

/-!
Verification of the CMDAPP custom bundler (`src/custom-build.js`).

The development shallowly embeds the dependency-resolution and ordering
engine of the bundler: the dependency extractor
(`extractDependenciesFromConfig`), the file indexer's index-update step
(`indexJsFilesInDirectory`), wildcard expansion
(`expandWildcardDependencies`), the worklist graph builder
(`buildDependencyGraphFromEntry`), the depth-first topological sorter
(`topologicalSortRequired`), the bundle concatenation
(`concatenateRequiredFiles`) and the build-id hash (`generateHash`).

JavaScript strings are modelled as Lean `String` with all operations
defined on the underlying `List Char`; JavaScript `Map`/`Set` are modelled
as insertion-ordered association lists / duplicate-free lists with the
exact overwrite/ignore semantics of `Map.set` and `Set.add`.  External
library calls (the babel parser, the `crypto` md5 digest, the regex
engine used for the context-patching `String.replace` chains, the
filesystem) are passed in as explicit function parameters; everything
else is translated directly from the source.
-/

namespace CustomBuild

/-- Boolean prefix test on character lists (JS `String.prototype.startsWith`). -/
def isPrefixChars : List Char → List Char → Bool
  | [], _ => true
  | _ :: _, [] => false
  | a :: as, b :: bs => a = b && isPrefixChars as bs

/-- JS `s.startsWith(t)`. -/
def jsStartsWith (s t : String) : Bool :=
  isPrefixChars t.data s.data

/-- JS `s.endsWith(t)` (a suffix of `s` read as a reversed-order check). -/
def jsEndsWith (s t : String) : Bool :=
  isPrefixChars t.data.reverse s.data.reverse

/-- Boolean substring test on character lists. -/
def isInfixChars (pat : List Char) : List Char → Bool
  | [] => isPrefixChars pat []
  | c :: rest => isPrefixChars pat (c :: rest) || isInfixChars pat rest

/-- JS `s.includes(t)`. -/
def jsIncludes (s t : String) : Bool :=
  isInfixChars t.data s.data

/-- JS `s.slice(0, -2)`: drop the last two characters. -/
def jsSliceDrop2 (s : String) : String :=
  String.mk s.data.dropLast.dropLast

/-- Whitespace recognized by JS `String.prototype.trim`. -/
def isJsSpace (c : Char) : Bool :=
  c = ' ' || c = '\t' || c = '\n' || c = '\r' || c = '\x0b' || c = '\x0c'

/-- JS `s.trim()`. -/
def jsTrim (s : String) : String :=
  String.mk (((s.data.dropWhile isJsSpace).reverse.dropWhile isJsSpace).reverse)

/-- JS `a || b` on strings (empty string is falsy). -/
def jsOrElse (a b : String) : String :=
  if a = "" then b else a

/-- JS `[...new Set(l)]`: deduplicate keeping the first occurrence of each
element, preserving insertion order. -/
def dedupKeepFirst (l : List String) : List String :=
  l.foldl (fun acc x => if x ∈ acc then acc else acc ++ [x]) []

/-- JS `Set.prototype.add` on an insertion-ordered duplicate-free list. -/
def setAdd (l : List String) (x : String) : List String :=
  if x ∈ l then l else l ++ [x]

/-- JS `Map.prototype.get`: keys of the modelled maps are unique, the first
binding is the binding. -/
def mapGet {α : Type} (m : List (String × α)) (k : String) : Option α :=
  (m.find? (fun p => p.1 = k)).map (·.2)

/-- JS `Map.prototype.set`: overwrite the value in place when the key is
present (the key keeps its insertion position), otherwise append. -/
def mapSet {α : Type} (m : List (String × α)) (k : String) (v : α) : List (String × α) :=
  if m.any (fun p => p.1 = k) then
    m.map (fun p => if p.1 = k then (k, v) else p)
  else
    m ++ [(k, v)]

/-- JS `Array.prototype.join('')`. -/
def concatAll : List String → String
  | [] => ""
  | s :: rest => s ++ concatAll rest

/-! ## Dependency extraction (`extractDependenciesFromConfig`, lines 80-255)

The babel AST nodes that the extractor actually inspects are string
literals (including one-quasi template literals, which
`extractStringLiteral` treats identically), array expressions, and object
expressions whose properties have identifier or string-literal keys.  A
configuration object is therefore modelled as an ordered list of
`(key, value)` pairs of such values; any other node shape is `other`. -/

inductive JsVal where
  | str : String → JsVal
  | tpl : String → JsVal
  | arr : List JsVal → JsVal
  | other : JsVal

/-- A babel `ObjectExpression` restricted to the shapes the extractor reads:
properties in source order, keyed by identifier or string-literal name. -/
abbrev ConfigObject : Type := List (String × JsVal)

/-- `findObjectProperty` (lines 105-125): first property with the given key. -/
def findObjectProperty (configObject : ConfigObject) (propertyName : String) : Option JsVal :=
  mapGet configObject propertyName

/-- `extractStringLiteral` (lines 80-88) applied to an optional node:
string literals and single-quasi template literals yield their text. -/
def extractStringLiteral : Option JsVal → Option String
  | some (JsVal.str s) => some s
  | some (JsVal.tpl s) => some s
  | _ => none

/-- `extractArrayOfStrings` (lines 90-103): keep the truthy (non-empty)
string-literal elements of an array expression, in order. -/
def extractArrayOfStrings : Option JsVal → List String
  | some (JsVal.arr elems) =>
      elems.filterMap (fun e =>
        match extractStringLiteral (some e) with
        | some s => if s = "" then none else some s
        | none => none)
  | _ => []

/-- JS string truthiness for the `if (extend)`-style guards: keep a
non-empty extracted string, drop `null` and `""`. -/
def truthyString : Option String → List String
  | some s => if s = "" then [] else [s]
  | none => []

/-- `extractDependenciesFromConfig` (lines 195-255): reads `extend`,
`overrides`, `mainView`, `requires`, `uses`, `stores`, `models` and
`controllers` in that order, then keeps entries that are non-empty and do
not trim to the empty string. -/
def extractDependenciesFromConfig (configObject : ConfigObject) : List String :=
  let deps :=
    truthyString (extractStringLiteral (findObjectProperty configObject "extend")) ++
    truthyString (extractStringLiteral (findObjectProperty configObject "overrides")) ++
    truthyString (extractStringLiteral (findObjectProperty configObject "mainView")) ++
    extractArrayOfStrings (findObjectProperty configObject "requires") ++
    extractArrayOfStrings (findObjectProperty configObject "uses") ++
    extractArrayOfStrings (findObjectProperty configObject "stores") ++
    extractArrayOfStrings (findObjectProperty configObject "models") ++
    extractArrayOfStrings (findObjectProperty configObject "controllers")
  deps.filter (fun dep => dep ≠ "" && jsTrim dep ≠ "")

/-- Modelled from the spec (section 4.2): the three-case shorthand
resolution function `resolve(shorthand, role, appNamespace)` that the spec
says every categorized entry and the main-view setting pass through.  No
such function exists in `src/custom-build.js`; this definition follows the
spec's words so the extractor can be compared against it. -/
def specResolveShorthand (shorthand role appNamespace : String) : String :=
  if jsStartsWith shorthand "." then
    appNamespace ++ "." ++ role ++ shorthand
  else if ('.' ∈ shorthand.data) = false then
    appNamespace ++ "." ++ role ++ "." ++ shorthand
  else
    shorthand

mutual

/-- A string occurs verbatim as a (string or template) literal in a value. -/
def valHasLiteral (s : String) : JsVal → Bool
  | JsVal.str t => s = t
  | JsVal.tpl t => s = t
  | JsVal.arr elems => valsHaveLiteral s elems
  | JsVal.other => false

/-- A string occurs verbatim as a literal in one of the listed values. -/
def valsHaveLiteral (s : String) : List JsVal → Bool
  | [] => false
  | v :: vs => valHasLiteral s v || valsHaveLiteral s vs

end

/-- A string occurs verbatim as a literal somewhere in a config object. -/
def configHasLiteral (configObject : ConfigObject) (s : String) : Bool :=
  configObject.any (fun p => valHasLiteral s p.2)

/-! ## Build id (`generateHash`, lines 263-265, and `buildExtApp` line 1978)

`crypto.createHash('md5')...digest('hex')` is an external library call; it
is passed in as the function `md5hex`. -/

/-- `generateHash` (lines 263-265): first 8 characters of the hex digest. -/
def generateHash (md5hex : String → String) (content : String) : String :=
  String.mk ((md5hex content).data.take 8)

/-- `buildExtApp` line 1978: `generateHash(finalJs + finalCss)`. -/
def buildIdOf (md5hex : String → String) (finalJs finalCss : String) : String :=
  generateHash md5hex (finalJs ++ finalCss)

/-- Hexadecimal digit predicate, for the manifest-id characterization. -/
def isHexDigit (c : Char) : Bool :=
  ('0' ≤ c && c ≤ '9') || ('a' ≤ c && c ≤ 'f')

/-! ## Source indexing (`indexJsFilesInDirectory`, lines 422-505)

Directory walking and babel parsing are I/O; what decides the duplicate-
definition behaviour is the index update at lines 477-483, applied once
per discovered file in walk order: `fileIndex.set(className, {...})`. -/

/-- The value stored in the `FileIndex` for one class (lines 478-482,
minus the purely diagnostic `relativePath`). -/
structure FileEntry where
  path : String
  isExtJS : Bool
deriving DecidableEq

/-- The `FileIndex`: a JS `Map` from qualified class name to `FileEntry`. -/
abbrev FileIndex : Type := List (String × FileEntry)

/-- Lines 477-483 of `indexJsFilesInDirectory`, applied to every file with
an extracted (or inferred) class name, in discovery order: each discovery
executes `fileIndex.set(className, fileEntry)`. -/
def indexDiscoveredClasses (discoveries : List (String × FileEntry)) (fileIndex : FileIndex) : FileIndex :=
  discoveries.foldl (fun idx d => mapSet idx d.1 d.2) fileIndex

/-! ## Wildcard expansion (`expandWildcardDependencies`, lines 1038-1081) -/

/-- `expandWildcardDependencies` (lines 1038-1081): a dependency ending in
`.*` is replaced by every indexed class name beginning with its prefix
followed by `.` (in index iteration order); other dependencies pass
through; finally `[...new Set(expanded)]` deduplicates keeping first
occurrences. -/
def expandWildcardDependencies (dependencies : List String) (fileIndex : FileIndex) : List String :=
  let expanded := dependencies.foldl (fun acc dep =>
    if jsEndsWith dep ".*" then
      acc ++ (fileIndex.map Prod.fst).filter
        (fun className => jsStartsWith className (jsSliceDrop2 dep ++ "."))
    else
      acc ++ [dep]) []
  dedupKeepFirst expanded

/-! ## The graph builder (`buildDependencyGraphFromEntry`, lines 1083-1270)

File reads and babel parsing are I/O: they are passed in as
`contentOf : path → file text` and `parse : path → parsed classes`
(the `classes` array produced by `parseJsFile`, lines 573-607, for that
path: each class has its registered name and the dependency list that
`extractDependenciesFromConfig` produced for it). -/

/-- One element of `parsedFile.classes`. -/
structure ParsedClass where
  name : String
  dependencies : List String
deriving DecidableEq

/-- A required file record as pushed by the builder (lines 1184-1190) and
consumed by the sorter and the assembler.  Core files (built by
`addExtJSCoreFiles`) carry `isCore := true` and a `priority`; builder
files carry the JS-falsy defaults `isCore := false`, `priority := 0`. -/
structure ReqFile where
  className : String
  filePath : String
  isExtJS : Bool
  isCore : Bool
  priority : Int
  dependencies : List String
  content : String
deriving DecidableEq

/-- The mutable state of the builder's worklist loop (lines 1086-1091). -/
structure BuildState where
  requiredClasses : List String
  requiredFiles : List ReqFile
  visited : List String
  processing : List String
  classToFile : List (String × String)
  queue : List String

/-- The result of `buildDependencyGraphFromEntry` (lines 1266-1269). -/
structure BuildResult where
  requiredClasses : List String
  requiredFiles : List ReqFile
deriving DecidableEq

/-- `line 1161-1165`: find the class record for the dequeued name, falling
back to the file's only class when there is exactly one. -/
def findClassInfo (classes : List ParsedClass) (currentClass : String) : Option ParsedClass :=
  match classes.find? (fun cls => cls.name = currentClass) with
  | some cls => some cls
  | none => if classes.length = 1 then classes.head? else none

/-- The body of one iteration of the `while (queue.length > 0)` loop
(lines 1093-1213), for dequeued name `currentClass` and remaining queue
`rest`. -/
def buildStep (parse : String → List ParsedClass) (contentOf : String → String)
    (fileIndex : FileIndex) (currentClass : String) (rest : List String)
    (s : BuildState) : BuildState :=
  if currentClass ∈ s.visited then
    { s with queue := rest }
  else if currentClass ∈ s.processing then
    { s with queue := rest }
  else
    let processing := s.processing ++ [currentClass]
    let visited := s.visited ++ [currentClass]
    match mapGet fileIndex currentClass with
    | none =>
        { s with queue := rest, visited := visited,
                 processing := processing.erase currentClass }
    | some fileInfo =>
        if (mapGet s.classToFile currentClass).elim false
            (fun existingFile => existingFile != fileInfo.path) then
          { s with queue := rest, visited := visited,
                   processing := processing.erase currentClass }
        else
          let requiredClasses := setAdd s.requiredClasses currentClass
          let classToFile := mapSet s.classToFile currentClass fileInfo.path
          let classes := parse fileInfo.path
          match findClassInfo classes currentClass with
          | some classInfo =>
              let dependencies := expandWildcardDependencies classInfo.dependencies fileIndex
              let newDependencies := dependencies.filter
                (fun dep => dep ∉ visited && dep ∉ processing)
              let requiredFiles :=
                if s.requiredFiles.any (fun f => f.filePath = fileInfo.path) then
                  s.requiredFiles
                else
                  s.requiredFiles ++ [{
                    className := currentClass
                    filePath := fileInfo.path
                    isExtJS := fileInfo.isExtJS
                    isCore := false
                    priority := 0
                    dependencies := dependencies
                    content := contentOf fileInfo.path }]
              let queue := newDependencies.foldl
                (fun q dep => if dep ∈ q then q else q ++ [dep]) rest
              { requiredClasses := requiredClasses
                requiredFiles := requiredFiles
                visited := visited
                processing := processing.erase currentClass
                classToFile := classToFile
                queue := queue }
          | none =>
              { s with queue := rest, visited := visited,
                       requiredClasses := requiredClasses,
                       classToFile := classToFile,
                       processing := processing.erase currentClass }

/-- The worklist loop, fuelled; `none` marks fuel exhaustion (shown
unreachable for the fuel chosen below). -/
def buildLoop (parse : String → List ParsedClass) (contentOf : String → String)
    (fileIndex : FileIndex) : Nat → BuildState → Option BuildState
  | 0, _ => none
  | fuel + 1, s =>
      match s.queue with
      | [] => some s
      | currentClass :: rest =>
          buildLoop parse contentOf fileIndex fuel
            (buildStep parse contentOf fileIndex currentClass rest s)

/-- Every name the loop can ever enqueue: the entry name together with the
expanded dependency lists of every class of every indexed file. -/
def buildUniverse (parse : String → List ParsedClass) (fileIndex : FileIndex)
    (entryClassName : String) : List String :=
  entryClassName :: fileIndex.flatMap (fun p =>
    (parse p.2.path).flatMap (fun cls => expandWildcardDependencies cls.dependencies fileIndex))

/-- Lines 1216-1229: deduplicate the collected files by class name and by
file path, keeping first occurrences. -/
def dedupRequiredFiles (requiredFiles : List ReqFile) : List ReqFile :=
  (requiredFiles.foldl (fun acc file =>
    let seenClasses := acc.map (fun f => f.className)
    let seenFiles := acc.map (fun f => f.filePath)
    if file.className ∉ seenClasses && file.filePath ∉ seenFiles then
      acc ++ [file]
    else acc) [])

/-- Lines 1231-1255: when nothing at all was resolved, try to re-look the
entry name up in the same index and emit it alone. -/
def entryFallback (contentOf : String → String) (fileIndex : FileIndex)
    (entryClassName : String) (requiredClasses : List String)
    (deduplicatedFiles : List ReqFile) : List String × List ReqFile :=
  if requiredClasses.length = 0 ∧ deduplicatedFiles.length = 0 then
    match mapGet fileIndex entryClassName with
    | some entryFileInfo =>
        (requiredClasses ++ [entryClassName],
         deduplicatedFiles ++ [{
           className := entryClassName
           filePath := entryFileInfo.path
           isExtJS := entryFileInfo.isExtJS
           isCore := false
           priority := 0
           dependencies := []
           content := contentOf entryFileInfo.path }])
    | none => (requiredClasses, deduplicatedFiles)
  else (requiredClasses, deduplicatedFiles)

/-- `buildDependencyGraphFromEntry` (lines 1083-1270). -/
def buildDependencyGraphFromEntry (parse : String → List ParsedClass)
    (contentOf : String → String) (fileIndex : FileIndex)
    (entryClassName : String) : Option BuildResult :=
  let fuel := (buildUniverse parse fileIndex entryClassName).length + 1
  match buildLoop parse contentOf fileIndex fuel
      { requiredClasses := [], requiredFiles := [], visited := [],
        processing := [], classToFile := [], queue := [entryClassName] } with
  | none => none
  | some s =>
      let deduplicatedFiles := dedupRequiredFiles s.requiredFiles
      let final := entryFallback contentOf fileIndex entryClassName
        s.requiredClasses deduplicatedFiles
      some { requiredClasses := final.1, requiredFiles := final.2 }

/-! ## The topological sorter (`topologicalSortRequired`, lines 1274-1339) -/

/-- `classToFile` of the sorter (lines 1281-1288): `Map.set` per file in
list order, so a lookup returns the last file bearing the name. -/
def lookupFile (regularFiles : List ReqFile) (className : String) : Option ReqFile :=
  (regularFiles.filter (fun f => f.className = className)).getLast?

/-- The node set of the sorter's graph: the class names of the regular
files, first occurrences first (`Map` key insertion order). -/
def graphKeys (regularFiles : List ReqFile) : List String :=
  dedupKeepFirst (regularFiles.map (fun f => f.className))

/-- The sorter's edge map (lines 1290-1297): for a name, the dependencies
contributed by every file bearing it, kept only when some regular file
provides them, deduplicated in insertion order (`Set.add`). -/
def graphDeps (regularFiles : List ReqFile) (className : String) : List String :=
  dedupKeepFirst
    (((regularFiles.filter (fun f => f.className = className)).flatMap
        (fun f => f.dependencies)).filter
      (fun dep => regularFiles.any (fun f => f.className = dep)))

/-- The mutable state of the sorter's depth-first traversal
(lines 1299-1301). -/
structure SortState where
  visited : List String
  visiting : List String
  sorted : List ReqFile

/-- The recursive `visit` (lines 1303-1326), fuelled: a name on the active
path or already finished is skipped; otherwise its present dependencies
are visited first and the name's file is appended afterwards.  Fuel
exhaustion returns the state unchanged; the fuel chosen in
`topologicalSortRequired` is proved sufficient below. -/
def visit (regularFiles : List ReqFile) : Nat → String → SortState → SortState
  | 0, _, s => s
  | fuel + 1, className, s =>
      if className ∈ s.visiting then s
      else if className ∈ s.visited then s
      else
        let s1 : SortState := { s with visiting := s.visiting ++ [className] }
        let s2 := (graphDeps regularFiles className).foldl
          (fun st dep => visit regularFiles fuel dep st) s1
        let s3 : SortState :=
          { visiting := s2.visiting.erase className
            visited := s2.visited ++ [className]
            sorted := s2.sorted }
        match lookupFile regularFiles className with
        | some file => { s3 with sorted := s3.sorted ++ [file] }
        | none => s3

/-- One stable insertion for `sortByPriority`: the new element goes after
every element whose priority does not exceed it, so elements of equal
priority keep their original relative order. -/
def insertByPriority (f : ReqFile) : List ReqFile → List ReqFile
  | [] => [f]
  | g :: gs => if f.priority < g.priority then f :: g :: gs else g :: insertByPriority f gs

/-- JS `coreFiles.sort((a, b) => a.priority - b.priority)` (line 1334):
a stable sort by ascending priority, modelled as stable insertion sort. -/
def sortByPriority (files : List ReqFile) : List ReqFile :=
  files.foldl (fun acc f => insertByPriority f acc) []

/-- `topologicalSortRequired` (lines 1274-1339): core files are split off
and sorted by ascending priority, the remaining files are ordered by the
depth-first post-order traversal, and the two lists are concatenated
core-first. -/
def topologicalSortRequired (requiredFiles : List ReqFile) : List ReqFile :=
  let coreFiles := requiredFiles.filter (fun f => f.isCore)
  let regularFiles := requiredFiles.filter (fun f => !f.isCore)
  let fuel := regularFiles.length + 1
  let finalState := (graphKeys regularFiles).foldl
    (fun st className => visit regularFiles fuel className st)
    { visited := [], visiting := [], sorted := [] }
  sortByPriority coreFiles ++ finalState.sorted

/-! ## Bundle assembly (`concatenateRequiredFiles`, lines 1343-1580)

The banner timestamp (`new Date().toISOString()`), the fixed prelude text
pushed at lines 1357-1417, the fixed verification/closing text pushed at
lines 1476-1577, the global content cache and the regex-based
context-patching `String.replace` chains (word-boundary regexes, an
external engine) are passed in as parameters; the per-file segment
structure is concrete. -/

/-- JS `content.replace(/\n/g, '\n    ')` (indent continuation lines). -/
def indentContent (content : String) : String :=
  String.mk (content.data.flatMap (fun c =>
    if c = '\n' then '\n' :: "    ".data else [c]))

/-- JS `content.replace(/\n/g, '\n        ')`. -/
def indentContent8 (content : String) : String :=
  String.mk (content.data.flatMap (fun c =>
    if c = '\n' then '\n' :: "        ".data else [c]))

/-- JS `path.basename`. -/
def jsBasename (p : String) : String :=
  String.mk ((p.data.reverse.takeWhile (fun c => c ≠ '/')).reverse)

/-- The chunks pushed for one file of the sorted list (lines 1420-1473).
`patchCore` models the four-replace chain applied to core files
(lines 1432-1435 and 1448-1451), `patchApp` the two-replace chain applied
to application files (lines 1467-1468), `cache` the global
`fileContentCache`. -/
def segmentChunks (patchCore patchApp : String → String)
    (cache : String → Option String) (file : ReqFile) : List String :=
  let content := jsOrElse ((cache file.filePath).getD "") (jsOrElse file.content "")
  if file.isCore then
    if jsIncludes file.className "BOOTSTRAP" || jsIncludes file.className "BUNDLE" then
      ["\n    // === ExtJS Core Bootstrap ===\n"] ++
      (if jsIncludes content "(function(global)" then [content]
       else ["    " ++ indentContent (patchCore content)]) ++
      ["\n", "    internalAttemptWrapExtDefine();\n", "\n"]
    else
      ["\n    // === ExtJS Core File: " ++ jsBasename file.filePath ++ " ===\n",
       "    (function() \x7b\n",
       "        var self = this;\n",
       "        " ++ indentContent8 (patchCore content) ++ "\n",
       "    \x7d).call(global);\n",
       "    internalAttemptWrapExtDefine();\n",
       "\n"]
  else
    ["\n    // Class: " ++ file.className ++ "\n    // File: " ++ file.filePath ++ "\n",
     "    " ++ indentContent (patchApp content),
     "\n"]

/-- The banner pushed at lines 1349-1354. -/
def bannerText (timestamp : String) (fileCount : Nat) : String :=
  "/**\n * ExtJS Application Bundle\n * Generated: " ++ timestamp ++
  "\n * Files: " ++ toString fileCount ++
  "\n * Built with AST-based dependency analysis\n */"

/-- `concatenateRequiredFiles` (lines 1343-1580): banner, fixed prelude,
one segment per sorted file in order, fixed verification/closing text,
joined with `''`. -/
def concatenateRequiredFiles (patchCore patchApp : String → String)
    (cache : String → Option String) (timestamp preludeText closingText : String)
    (sortedFiles : List ReqFile) : String :=
  concatAll ([bannerText timestamp sortedFiles.length, preludeText] ++
    sortedFiles.flatMap (segmentChunks patchCore patchApp cache) ++
    [closingText])

/-! ## Concrete sample inputs used by witnesses and counterexamples -/

/-- A throwaway default record (used only to strip `Option`). -/
def blankReqFile : ReqFile :=
  { className := "", filePath := "", isExtJS := false, isCore := false,
    priority := 0, dependencies := [], content := "" }

/-- Sample application class `A` requiring `B` and `C` (acyclic). -/
def sampleA : ReqFile :=
  { className := "A", filePath := "a.js", isExtJS := false, isCore := false,
    priority := 0, dependencies := ["B", "C"], content := "" }

/-- Sample application class `B` requiring `C` (acyclic). -/
def sampleB : ReqFile :=
  { className := "B", filePath := "b.js", isExtJS := false, isCore := false,
    priority := 0, dependencies := ["C"], content := "" }

/-- Sample application class `C` with no dependencies. -/
def sampleC : ReqFile :=
  { className := "C", filePath := "c.js", isExtJS := false, isCore := false,
    priority := 0, dependencies := [], content := "" }

/-- Sample class `A` of the circular pair `A → B → A`. -/
def cycFileA : ReqFile :=
  { className := "A", filePath := "a.js", isExtJS := false, isCore := false,
    priority := 0, dependencies := ["B"], content := "" }

/-- Sample class `B` of the circular pair `A → B → A`. -/
def cycFileB : ReqFile :=
  { className := "B", filePath := "b.js", isExtJS := false, isCore := false,
    priority := 0, dependencies := ["A"], content := "" }

/-- The two-file circular index `A → B → A` used for the cycle scenario. -/
def cycIndex : FileIndex :=
  [("A", { path := "a.js", isExtJS := false }),
   ("B", { path := "b.js", isExtJS := false })]

/-- Parse results for the circular pair: `a.js` declares `A` requiring
`B`, `b.js` declares `B` requiring `A`. -/
def cycParse : String → List ParsedClass := fun p =>
  if p = "a.js" then [{ name := "A", dependencies := ["B"] }]
  else if p = "b.js" then [{ name := "B", dependencies := ["A"] }]
  else []

/-- Two discovery events both declaring `NS.Foo`, from different files, in
walk order `f1.js` then `f2.js`. -/
def dupDiscoveries : List (String × FileEntry) :=
  [("NS.Foo", { path := "f1.js", isExtJS := false }),
   ("NS.Foo", { path := "f2.js", isExtJS := false })]

/-- Parse results for the duplicate-definition scenario: both files
declare `NS.Foo` with no dependencies. -/
def dupParse : String → List ParsedClass := fun _ =>
  [{ name := "NS.Foo", dependencies := [] }]

/-! ## Invariants used in the proofs -/

/-- The per-dependency contribution of the expansion loop. -/
def wildcardContribution (fileIndex : FileIndex) (dep : String) : List String :=
  if jsEndsWith dep ".*" then
    (fileIndex.map Prod.fst).filter
      (fun className => jsStartsWith className (jsSliceDrop2 dep ++ "."))
  else [dep]

/-- The loop invariant of the builder's worklist: nothing is mid-flight
(`processing` is empty between iterations), the queue is duplicate-free,
holds only never-visited names drawn from the enqueueable universe, and
the duplicate-tracking map only ever binds already-visited names. -/
def BuildInv (parse : String → List ParsedClass) (fileIndex : FileIndex)
    (entryClassName : String) (s : BuildState) : Prop :=
  s.processing = [] ∧ s.queue.Nodup ∧
  (∀ x ∈ s.queue, x ∈ buildUniverse parse fileIndex entryClassName ∧ x ∉ s.visited) ∧
  (∀ p ∈ s.classToFile, p.1 ∈ s.visited)

/-- Growth ordering on sorter states: the visited set and the output are
only ever extended at the end. -/
def SortStateLe (s s' : SortState) : Prop :=
  (∃ t, s'.visited = s.visited ++ t) ∧ (∃ t, s'.sorted = s.sorted ++ t)

/-- The depth-first traversal's recursion bound: how many graph nodes are
not yet on the active path. -/
def sortMeasure (regularFiles : List ReqFile) (s : SortState) : Nat :=
  ((graphKeys regularFiles).filter (fun n => n ∉ s.visiting)).length

/-- Invariant of the depth-first traversal, cycles allowed: finished names
are duplicate-free graph nodes, the output's class names enumerate exactly
the finished names, and every output record is one of the input files. -/
def GSortInv (regularFiles : List ReqFile) (s : SortState) : Prop :=
  s.visited.Nodup ∧ (∀ n ∈ s.visited, n ∈ graphKeys regularFiles) ∧
  (s.sorted.map (fun f => f.className)).Perm s.visited ∧
  (∀ g ∈ s.sorted, g ∈ regularFiles)

/-- Invariant of the depth-first traversal on acyclic graphs: every
finished name has a record in the output, and every output record comes
strictly after records for all of its present dependencies. -/
def ASortInv (regularFiles : List ReqFile) (s : SortState) : Prop :=
  (∀ n ∈ s.visited, ∃ g ∈ s.sorted, g.className = n) ∧
  (∀ j, ∀ hj : j < s.sorted.length,
    ∀ d ∈ graphDeps regularFiles (s.sorted[j].className),
      ∃ i, i < j ∧ ∃ hi : i < s.sorted.length, s.sorted[i].className = d)

/-! ## Basic lemmas about the JS collection models -/

theorem foldl_setAdd_mem (l : List String) (acc : List String) (x : String) :
    x ∈ l.foldl (fun a y => if y ∈ a then a else a ++ [y]) acc ↔ x ∈ acc ∨ x ∈ l := by
  induction l generalizing acc with
  | nil => simp
  | cons y ys ih =>
      by_cases hy : y ∈ acc
      · simp only [List.foldl_cons, if_pos hy, ih]
        constructor
        · rintro (h | h)
          · exact Or.inl h
          · exact Or.inr (List.mem_cons_of_mem _ h)
        · rintro (h | h)
          · exact Or.inl h
          · rcases List.mem_cons.mp h with h | h
            · exact Or.inl (h ▸ hy)
            · exact Or.inr h
      · simp only [List.foldl_cons, if_neg hy, ih, List.mem_append,
          List.mem_singleton, List.mem_cons]
        tauto

theorem foldl_setAdd_nodup (l : List String) (acc : List String) (h : acc.Nodup) :
    (l.foldl (fun a y => if y ∈ a then a else a ++ [y]) acc).Nodup := by
  induction l generalizing acc with
  | nil => simpa using h
  | cons y ys ih =>
      by_cases hy : y ∈ acc
      · simpa [hy] using ih acc h
      · simp only [List.foldl_cons, if_neg hy]
        exact ih _ (by simp [List.nodup_append, h, hy])

theorem foldl_setAdd_length (l : List String) (acc : List String) :
    (l.foldl (fun a y => if y ∈ a then a else a ++ [y]) acc).length ≤ acc.length + l.length := by
  induction l generalizing acc with
  | nil => simp
  | cons y ys ih =>
      by_cases hy : y ∈ acc
      · simp only [List.foldl_cons, if_pos hy]
        calc _ ≤ acc.length + ys.length := ih acc
        _ ≤ acc.length + (y :: ys).length := by simp only [List.length_cons]; omega
      · simp only [List.foldl_cons, if_neg hy]
        calc _ ≤ (acc ++ [y]).length + ys.length := ih _
        _ ≤ acc.length + (y :: ys).length := by
            simp only [List.length_append, List.length_cons, List.length_nil]
            omega

theorem mem_dedupKeepFirst {l : List String} {x : String} :
    x ∈ dedupKeepFirst l ↔ x ∈ l := by
  unfold dedupKeepFirst
  rw [foldl_setAdd_mem]
  simp

theorem nodup_dedupKeepFirst (l : List String) : (dedupKeepFirst l).Nodup :=
  foldl_setAdd_nodup l [] List.nodup_nil

theorem length_dedupKeepFirst_le (l : List String) :
    (dedupKeepFirst l).length ≤ l.length := by
  have := foldl_setAdd_length l []
  simpa [dedupKeepFirst] using this

theorem dedupKeepFirst_eq_self {l : List String} (h : l.Nodup) :
    dedupKeepFirst l = l := by
  unfold dedupKeepFirst
  suffices haux : ∀ (l acc : List String), l.Nodup → (∀ x ∈ l, x ∉ acc) →
      l.foldl (fun a y => if y ∈ a then a else a ++ [y]) acc = acc ++ l by
    simpa using haux l [] h (by simp)
  intro l
  induction l with
  | nil => intro acc _ _; simp
  | cons y ys ih =>
      intro acc hnd hdis
      have hy : y ∉ acc := hdis y (List.mem_cons_self _ _)
      simp only [List.foldl_cons, if_neg hy]
      rw [ih _ (List.Nodup.of_cons hnd)]
      · simp
      · intro x hx
        simp only [List.mem_append, List.mem_singleton]
        rintro (h | h)
        · exact hdis x (List.mem_cons_of_mem _ hx) h
        · exact (List.nodup_cons.mp hnd).1 (h ▸ hx)

theorem mapGet_some_mem {α : Type} {m : List (String × α)} {k : String} {v : α}
    (h : mapGet m k = some v) : (k, v) ∈ m := by
  unfold mapGet at h
  rcases Option.map_eq_some'.mp h with ⟨p, hfind, hv⟩
  have hk : p.1 = k := by
    have := List.find?_some hfind
    exact of_decide_eq_true this
  have hmem := List.mem_of_find?_eq_some hfind
  have : p = (k, v) := by
    cases p
    simp_all
  exact this ▸ hmem

theorem mapGet_eq_none {α : Type} {m : List (String × α)} {k : String}
    (h : ∀ p ∈ m, p.1 ≠ k) : mapGet m k = none := by
  unfold mapGet
  have : m.find? (fun p => p.1 = k) = none := by
    rw [List.find?_eq_none]
    intro p hp
    simpa using h p hp
  simp [this]

theorem erase_append_singleton {v : List String} {c : String} (h : c ∉ v) :
    (v ++ [c]).erase c = v := by
  induction v with
  | nil => simp [List.erase_cons]
  | cons a as ih =>
      have hne : c ≠ a := by
        intro hc
        exact h (hc ▸ List.mem_cons_self _ _)
      have : a ≠ c := fun hc => hne hc.symm
      simp only [List.cons_append, List.erase_cons]
      rw [if_neg (by simpa using this)]
      rw [ih (fun hc => h (List.mem_cons_of_mem _ hc))]

theorem lookupFile_some {regularFiles : List ReqFile} {n : String} {f : ReqFile}
    (h : lookupFile regularFiles n = some f) : f ∈ regularFiles ∧ f.className = n := by
  unfold lookupFile at h
  have hmem : f ∈ regularFiles.filter (fun g => g.className = n) :=
    List.mem_of_mem_getLast? (by simp [h])
  have := List.mem_filter.mp hmem
  exact ⟨this.1, of_decide_eq_true this.2⟩

theorem lookupFile_isSome_of_mem {regularFiles : List ReqFile} {n : String}
    (h : ∃ f ∈ regularFiles, f.className = n) :
    ∃ f, lookupFile regularFiles n = some f := by
  unfold lookupFile
  rcases h with ⟨f, hf, hn⟩
  have hne : regularFiles.filter (fun g => g.className = n) ≠ [] := by
    intro hnil
    have : f ∈ regularFiles.filter (fun g => g.className = n) :=
      List.mem_filter.mpr ⟨hf, by simp [hn]⟩
    simp [hnil] at this
  rcases Option.isSome_iff_exists.mp (List.getLast?_isSome.mpr hne) with ⟨g, hg⟩
  exact ⟨g, hg⟩

theorem mem_graphKeys {regularFiles : List ReqFile} {n : String} :
    n ∈ graphKeys regularFiles ↔ ∃ f ∈ regularFiles, f.className = n := by
  unfold graphKeys
  rw [mem_dedupKeepFirst]
  simp [eq_comm]

theorem graphDeps_subset_keys {regularFiles : List ReqFile} {n d : String}
    (h : d ∈ graphDeps regularFiles n) : d ∈ graphKeys regularFiles := by
  unfold graphDeps at h
  rw [mem_dedupKeepFirst] at h
  have := (List.mem_filter.mp h).2
  rcases List.any_eq_true.mp this with ⟨f, hf, hd⟩
  exact mem_graphKeys.mpr ⟨f, hf, of_decide_eq_true hd⟩

/-! ## Lemmas about the dependency extractor -/

theorem valsHaveLiteral_of_mem {s : String} {e : JsVal} {elems : List JsVal}
    (hmem : e ∈ elems) (hlit : valHasLiteral s e = true) :
    valsHaveLiteral s elems = true := by
  induction elems with
  | nil => cases hmem
  | cons v vs ih =>
      rcases List.mem_cons.mp hmem with h | h
      · simp [valsHaveLiteral, h ▸ hlit]
      · simp [valsHaveLiteral, ih h]

theorem mem_truthyString {o : Option String} {d : String} (h : d ∈ truthyString o) :
    o = some d ∧ d ≠ "" := by
  cases o with
  | none => cases h
  | some s =>
      by_cases hs : s = "" <;> simp [truthyString, hs] at h
      exact ⟨by simp [h], h ▸ hs⟩

theorem extractStringLiteral_hasLiteral {v : JsVal} {d : String}
    (h : extractStringLiteral (some v) = some d) : valHasLiteral d v = true := by
  cases v <;> simp [extractStringLiteral] at h <;> simp [valHasLiteral, h]

theorem mem_extractArrayOfStrings_hasLiteral {o : Option JsVal} {d : String}
    (h : d ∈ extractArrayOfStrings o) :
    ∃ v, o = some v ∧ valHasLiteral d v = true ∧ d ≠ "" := by
  match o with
  | none => cases h
  | some (JsVal.str s) => cases h
  | some (JsVal.tpl s) => cases h
  | some JsVal.other => cases h
  | some (JsVal.arr elems) =>
      refine ⟨JsVal.arr elems, rfl, ?_, ?_⟩
      · simp only [extractArrayOfStrings] at h
        rcases List.mem_filterMap.mp h with ⟨e, he, hfe⟩
        have hd : extractStringLiteral (some e) = some d ∧ d ≠ "" := by
          cases hlit : extractStringLiteral (some e) with
          | none => simp [hlit] at hfe
          | some s =>
              by_cases hs : s = "" <;> simp [hlit, hs] at hfe
              exact ⟨by simp [hfe], hfe ▸ hs⟩
        simp only [valHasLiteral]
        exact valsHaveLiteral_of_mem he (extractStringLiteral_hasLiteral hd.1)
      · simp only [extractArrayOfStrings] at h
        rcases List.mem_filterMap.mp h with ⟨e, _, hfe⟩
        cases hlit : extractStringLiteral (some e) with
        | none => simp [hlit] at hfe
        | some s =>
            by_cases hs : s = "" <;> simp [hlit, hs] at hfe
            exact hfe ▸ hs

theorem findObjectProperty_mem {configObject : ConfigObject} {k : String} {v : JsVal}
    (h : findObjectProperty configObject k = some v) : (k, v) ∈ configObject :=
  mapGet_some_mem h

theorem extract_mem_configHasLiteral {configObject : ConfigObject} {d : String}
    (h : d ∈ extractDependenciesFromConfig configObject) :
    configHasLiteral configObject d = true := by
  unfold extractDependenciesFromConfig at h
  have hmem := List.mem_of_mem_filter h
  have key : ∀ k : String, d ∈ truthyString (extractStringLiteral (findObjectProperty configObject k)) →
      configHasLiteral configObject d = true := by
    intro k hk
    rcases mem_truthyString hk with ⟨hsome, _⟩
    cases hv : findObjectProperty configObject k with
    | none => simp [hv, extractStringLiteral] at hsome
    | some v =>
        have hlit : valHasLiteral d v = true :=
          extractStringLiteral_hasLiteral (hv ▸ hsome)
        exact List.any_eq_true.mpr ⟨(k, v), findObjectProperty_mem hv, hlit⟩
  have keyArr : ∀ k : String, d ∈ extractArrayOfStrings (findObjectProperty configObject k) →
      configHasLiteral configObject d = true := by
    intro k hk
    rcases mem_extractArrayOfStrings_hasLiteral hk with ⟨v, hsome, hlit, _⟩
    exact List.any_eq_true.mpr ⟨(k, v), findObjectProperty_mem hsome, hlit⟩
  simp only [List.mem_append] at hmem
  rcases hmem with ((((((h1 | h2) | h3) | h4) | h5) | h6) | h7) | h8
  · exact key "extend" h1
  · exact key "overrides" h2
  · exact key "mainView" h3
  · exact keyArr "requires" h4
  · exact keyArr "uses" h5
  · exact keyArr "stores" h6
  · exact keyArr "models" h7
  · exact keyArr "controllers" h8

theorem mem_extract_of_mem_arrayKey {configObject : ConfigObject} {s : String}
    (k : String)
    (hk : k = "requires" ∨ k = "uses" ∨ k = "stores" ∨ k = "models" ∨ k = "controllers")
    (hmem : s ∈ extractArrayOfStrings (findObjectProperty configObject k))
    (htrim : jsTrim s ≠ "") :
    s ∈ extractDependenciesFromConfig configObject := by
  have hne : s ≠ "" := (mem_extractArrayOfStrings_hasLiteral hmem).choose_spec.2.2
  unfold extractDependenciesFromConfig
  refine List.mem_filter.mpr ⟨?_, by simp [hne, htrim]⟩
  simp only [List.mem_append]
  rcases hk with h | h | h | h | h <;> subst h
  · exact Or.inl (Or.inl (Or.inl (Or.inl (Or.inr hmem))))
  · exact Or.inl (Or.inl (Or.inl (Or.inr hmem)))
  · exact Or.inl (Or.inl (Or.inr hmem))
  · exact Or.inl (Or.inr hmem)
  · exact Or.inr hmem

theorem findObjectProperty_filter_ne {configObject : ConfigObject} (k : String)
    (hk : k ≠ "views" ∧ k ≠ "profiles") :
    findObjectProperty (configObject.filter (fun p => p.1 ≠ "views" && p.1 ≠ "profiles")) k =
      findObjectProperty configObject k := by
  unfold findObjectProperty mapGet
  induction configObject with
  | nil => rfl
  | cons p ps ih =>
      by_cases hp : p.1 = k
      · have hkeep : (decide (p.1 ≠ "views") && decide (p.1 ≠ "profiles")) = true := by
          simp [hp, hk.1, hk.2]
        rw [@List.filter_cons_of_pos _
            (fun q => decide (q.1 ≠ "views") && decide (q.1 ≠ "profiles")) p ps hkeep,
          List.find?_cons_of_pos _ (by simpa using hp),
          List.find?_cons_of_pos _ (by simpa using hp)]
      · rw [List.find?_cons_of_neg _ (by simpa using hp)]
        by_cases hkeep : (decide (p.1 ≠ "views") && decide (p.1 ≠ "profiles")) = true
        · rw [@List.filter_cons_of_pos _
              (fun q => decide (q.1 ≠ "views") && decide (q.1 ≠ "profiles")) p ps hkeep,
            List.find?_cons_of_neg _ (by simpa using hp)]
          exact ih
        · rw [@List.filter_cons_of_neg _
              (fun q => decide (q.1 ≠ "views") && decide (q.1 ≠ "profiles")) p ps
              (by simpa using hkeep)]
          exact ih

/-! ## Claim C3 — shorthand resolution -/

/-- C3 (counterexample): the claim says the main-view setting is resolved
through the three-case `resolve(shorthand, role, appNamespace)` function,
so a no-dot `mainView` of `"Main"` would surface as `"CMDAPP.view.Main"`.
On the code, `extractDependenciesFromConfig` pushes the raw string: the
extracted list is `["Main"]`, not the resolved name. -/
theorem c3_mainView_not_resolved_counterexample :
    extractDependenciesFromConfig [("mainView", JsVal.str "Main")] = ["Main"] ∧
    specResolveShorthand "Main" "view" "CMDAPP" = "CMDAPP.view.Main" ∧
    ("Main" : String) ≠ "CMDAPP.view.Main" := by
  refine ⟨by decide, by decide, by decide⟩

/-- C3 (amended): the extractor applies no shorthand-namespace resolution
at all: every extracted dependency entry — the main-view entry included —
is returned verbatim, exactly as it occurs as a string literal in the
configuration object. -/
theorem c3_extracted_entries_verbatim (configObject : ConfigObject) (d : String)
    (h : d ∈ extractDependenciesFromConfig configObject) :
    configHasLiteral configObject d = true :=
  extract_mem_configHasLiteral h

/-- C3 (witness): the amended theorem applied to the one-property
configuration `{ mainView: 'Main' }` and the entry `"Main"`. -/
theorem c3_extracted_entries_verbatim_witness :
    "Main" ∈ extractDependenciesFromConfig [("mainView", JsVal.str "Main")] ∧
    configHasLiteral [("mainView", JsVal.str "Main")] "Main" = true :=
  ⟨by decide, c3_extracted_entries_verbatim [("mainView", JsVal.str "Main")] "Main" (by decide)⟩

/-! ## Claim C8 — which configuration keys are read -/

/-- C8 (counterexample): the claim says the `views` and `profiles`
role-categorized lists are read, so their entries appear in the extracted
dependency list.  On the code, a configuration whose only properties are
`views: ['NS.V']` and `profiles: ['NS.P']` extracts to the empty list. -/
theorem c8_views_profiles_ignored_counterexample :
    extractDependenciesFromConfig
        [("views", JsVal.arr [JsVal.str "NS.V"]),
         ("profiles", JsVal.arr [JsVal.str "NS.P"])] = [] ∧
    "NS.V" ∉ extractDependenciesFromConfig
        [("views", JsVal.arr [JsVal.str "NS.V"]),
         ("profiles", JsVal.arr [JsVal.str "NS.P"])] := by
  refine ⟨by decide, by decide⟩

/-- C8 (amended): the extractor reads the single extends name, the single
overrides name if present, the main-view name if present, the flat
requires and uses lists, and three of the five role-categorized lists —
stores, models and controllers — so that every (non-blank) entry of those
five list-valued keys appears in the extracted dependency list; the
`views` and `profiles` lists are never read: deleting them from the
configuration does not change the extraction. -/
theorem c8_read_keys (configObject : ConfigObject) :
    (∀ s : String, jsTrim s ≠ "" →
      (s ∈ extractArrayOfStrings (findObjectProperty configObject "requires") ∨
       s ∈ extractArrayOfStrings (findObjectProperty configObject "uses") ∨
       s ∈ extractArrayOfStrings (findObjectProperty configObject "stores") ∨
       s ∈ extractArrayOfStrings (findObjectProperty configObject "models") ∨
       s ∈ extractArrayOfStrings (findObjectProperty configObject "controllers")) →
      s ∈ extractDependenciesFromConfig configObject) ∧
    extractDependenciesFromConfig
        (configObject.filter (fun p => p.1 ≠ "views" && p.1 ≠ "profiles")) =
      extractDependenciesFromConfig configObject := by
  constructor
  · intro s htrim hmem
    rcases hmem with h | h | h | h | h
    · exact mem_extract_of_mem_arrayKey "requires" (by simp) h htrim
    · exact mem_extract_of_mem_arrayKey "uses" (by simp) h htrim
    · exact mem_extract_of_mem_arrayKey "stores" (by simp) h htrim
    · exact mem_extract_of_mem_arrayKey "models" (by simp) h htrim
    · exact mem_extract_of_mem_arrayKey "controllers" (by simp) h htrim
  · unfold extractDependenciesFromConfig
    rw [findObjectProperty_filter_ne "extend" (by decide),
      findObjectProperty_filter_ne "overrides" (by decide),
      findObjectProperty_filter_ne "mainView" (by decide),
      findObjectProperty_filter_ne "requires" (by decide),
      findObjectProperty_filter_ne "uses" (by decide),
      findObjectProperty_filter_ne "stores" (by decide),
      findObjectProperty_filter_ne "models" (by decide),
      findObjectProperty_filter_ne "controllers" (by decide)]

/-- C8 (witness): the amended theorem applied to `{ stores: ['NS.S'] }`
and the entry `"NS.S"`. -/
theorem c8_read_keys_witness :
    jsTrim "NS.S" ≠ "" ∧
    "NS.S" ∈ extractArrayOfStrings
      (findObjectProperty [("stores", JsVal.arr [JsVal.str "NS.S"])] "stores") ∧
    "NS.S" ∈ extractDependenciesFromConfig [("stores", JsVal.arr [JsVal.str "NS.S"])] :=
  ⟨by decide, by decide,
    (c8_read_keys [("stores", JsVal.arr [JsVal.str "NS.S"])]).1 "NS.S" (by decide)
      (Or.inr (Or.inr (Or.inl (by decide))))⟩

/-! ## Claim C4 — wildcard expansion -/

theorem jsEndsWith_append_dotstar (p : String) : jsEndsWith (p ++ ".*") ".*" = true := by
  unfold jsEndsWith
  rw [String.data_append]
  show isPrefixChars (['.', '*'].reverse) ((p.data ++ ['.', '*']).reverse) = true
  rw [List.reverse_append]
  simp [isPrefixChars]

theorem jsSliceDrop2_append_dotstar (p : String) : jsSliceDrop2 (p ++ ".*") = p := by
  unfold jsSliceDrop2
  rw [String.data_append]
  show String.mk ((p.data ++ ['.', '*']).dropLast.dropLast) = p
  have h : p.data ++ ['.', '*'] = (p.data ++ ['.']) ++ ['*'] := by simp
  rw [h, List.dropLast_concat, List.dropLast_concat]

theorem expand_foldl_eq (dependencies : List String) (fileIndex : FileIndex)
    (acc : List String) :
    dependencies.foldl (fun a dep =>
      if jsEndsWith dep ".*" then
        a ++ (fileIndex.map Prod.fst).filter
          (fun className => jsStartsWith className (jsSliceDrop2 dep ++ "."))
      else a ++ [dep]) acc =
    acc ++ dependencies.flatMap (wildcardContribution fileIndex) := by
  induction dependencies generalizing acc with
  | nil => simp
  | cons d ds ih =>
      by_cases hd : jsEndsWith d ".*" = true
      · simp only [List.foldl_cons, if_pos hd, ih, List.flatMap_cons,
          wildcardContribution, List.append_assoc]
      · simp only [List.foldl_cons, if_neg hd, ih, List.flatMap_cons,
          wildcardContribution, List.append_assoc]

theorem expandWildcardDependencies_eq (dependencies : List String) (fileIndex : FileIndex) :
    expandWildcardDependencies dependencies fileIndex =
      dedupKeepFirst (dependencies.flatMap (wildcardContribution fileIndex)) := by
  unfold expandWildcardDependencies
  rw [expand_foldl_eq]
  simp

/-- C4: wildcard expansion.  First conjunct: for every index and every
wildcard dependency `p ++ ".*"`, expansion yields exactly the deduplicated
indexed names whose text starts with `p ++ "."` — the prefix up to and
excluding the trailing `.*`, joined by a required `.` boundary.  Second
conjunct: the set of expanded names is exactly the indexed names with that
boundary-checked prefix.  Third conjunct: the spec's concrete example,
index `{A.sub.X, A.sub.Y, A.other.Z}` with dependency `A.sub.*`. -/
theorem c4_wildcard_expansion :
    (∀ (fileIndex : FileIndex) (p : String),
      expandWildcardDependencies [p ++ ".*"] fileIndex =
        dedupKeepFirst ((fileIndex.map Prod.fst).filter
          (fun className => jsStartsWith className (p ++ ".")))) ∧
    (∀ (fileIndex : FileIndex) (p n : String),
      n ∈ expandWildcardDependencies [p ++ ".*"] fileIndex ↔
        ((∃ fe, (n, fe) ∈ fileIndex) ∧ jsStartsWith n (p ++ ".") = true)) ∧
    expandWildcardDependencies ["A.sub.*"]
        [("A.sub.X", { path := "x.js", isExtJS := true }),
         ("A.sub.Y", { path := "y.js", isExtJS := true }),
         ("A.other.Z", { path := "z.js", isExtJS := true })] =
      ["A.sub.X", "A.sub.Y"] := by
  have hbase : ∀ (fileIndex : FileIndex) (p : String),
      expandWildcardDependencies [p ++ ".*"] fileIndex =
        dedupKeepFirst ((fileIndex.map Prod.fst).filter
          (fun className => jsStartsWith className (p ++ "."))) := by
    intro fileIndex p
    rw [expandWildcardDependencies_eq]
    simp only [List.flatMap_cons, List.flatMap_nil, List.append_nil,
      wildcardContribution]
    rw [if_pos (jsEndsWith_append_dotstar p), jsSliceDrop2_append_dotstar]
  refine ⟨hbase, ?_, by decide⟩
  intro fileIndex p n
  rw [hbase, mem_dedupKeepFirst, List.mem_filter]
  constructor
  · rintro ⟨hmem, hpre⟩
    rcases List.mem_map.mp hmem with ⟨pair, hpair, hfst⟩
    exact ⟨⟨pair.2, by cases pair; simp_all⟩, hpre⟩
  · rintro ⟨⟨fe, hfe⟩, hpre⟩
    exact ⟨List.mem_map.mpr ⟨(n, fe), hfe, rfl⟩, hpre⟩

/-! ## Claim C9 — build id -/

/-- C9: the build id is `generateHash(finalJs + finalCss)`, the first 8
characters of the (hex) md5 digest of the concatenated final JS and CSS
text, hence 8 hexadecimal characters, and it is deterministic: identical
final JS and CSS content yields the identical id. -/
theorem c9_build_id (md5hex : String → String)
    (hmd5 : ∀ s, (md5hex s).data.length = 32 ∧ ∀ c ∈ (md5hex s).data, isHexDigit c = true)
    (finalJs finalCss finalJs2 finalCss2 : String) :
    buildIdOf md5hex finalJs finalCss = generateHash md5hex (finalJs ++ finalCss) ∧
    (buildIdOf md5hex finalJs finalCss).data.length = 8 ∧
    (∀ c ∈ (buildIdOf md5hex finalJs finalCss).data, isHexDigit c = true) ∧
    (finalJs = finalJs2 → finalCss = finalCss2 →
      buildIdOf md5hex finalJs finalCss = buildIdOf md5hex finalJs2 finalCss2) := by
  refine ⟨rfl, ?_, ?_, ?_⟩
  · show ((md5hex (finalJs ++ finalCss)).data.take 8).length = 8
    rw [List.length_take, (hmd5 (finalJs ++ finalCss)).1]
    decide
  · intro c hc
    exact (hmd5 (finalJs ++ finalCss)).2 c (List.take_subset _ _ hc)
  · intro h1 h2
    rw [h1, h2]

/-- C9 (witness): the theorem applied to a constant 32-hex-character
digest function and concrete JS/CSS text. -/
theorem c9_build_id_witness :
    (("0123456789abcdef0123456789abcdef" : String).data.length = 32 ∧
      ∀ c ∈ ("0123456789abcdef0123456789abcdef" : String).data, isHexDigit c = true) ∧
    (buildIdOf (fun _ : String => "0123456789abcdef0123456789abcdef")
      "var x = 1;" "body \x7b color: red \x7d").data.length = 8 := by
  have hmd5 : ∀ s : String,
      ((fun _ : String => "0123456789abcdef0123456789abcdef") s).data.length = 32 ∧
      ∀ c ∈ ((fun _ : String => "0123456789abcdef0123456789abcdef") s).data,
        isHexDigit c = true := by
    intro s
    constructor
    · show ("0123456789abcdef0123456789abcdef" : String).data.length = 32
      decide
    · show ∀ c ∈ ("0123456789abcdef0123456789abcdef" : String).data, isHexDigit c = true
      decide
  exact ⟨hmd5 "", (c9_build_id (fun _ : String => "0123456789abcdef0123456789abcdef") hmd5
    "var x = 1;" "body \x7b color: red \x7d"
    "var x = 1;" "body \x7b color: red \x7d").2.1⟩

/-! ## Termination of the graph builder (claim C5) -/

theorem mapSet_mem {α : Type} {m : List (String × α)} {k : String} {v : α} :
    ∀ p ∈ mapSet m k v, p.1 = k ∨ p ∈ m := by
  intro p hp
  unfold mapSet at hp
  by_cases hhas : m.any (fun q => q.1 = k)
  · rw [if_pos hhas] at hp
    rcases List.mem_map.mp hp with ⟨q, hq, hqeq⟩
    by_cases hq1 : q.1 = k
    · rw [if_pos (by simpa using hq1)] at hqeq
      exact Or.inl (by rw [← hqeq])
    · rw [if_neg (by simpa using hq1)] at hqeq
      exact Or.inr (hqeq ▸ hq)
  · rw [if_neg hhas] at hp
    rcases List.mem_append.mp hp with h | h
    · exact Or.inr h
    · exact Or.inl (by simp at h; rw [h])

theorem findClassInfo_mem {classes : List ParsedClass} {c : String} {ci : ParsedClass}
    (h : findClassInfo classes c = some ci) : ci ∈ classes := by
  unfold findClassInfo at h
  cases hfind : classes.find? (fun cls => cls.name = c) with
  | some cls =>
      rw [hfind] at h
      exact (Option.some_inj.mp h) ▸ List.mem_of_find?_eq_some hfind
  | none =>
      rw [hfind] at h
      by_cases hlen : classes.length = 1
      · rw [if_pos hlen] at h
        cases classes with
        | nil => cases h
        | cons a as => exact (Option.some_inj.mp h) ▸ List.mem_cons_self _ _
      · rw [if_neg hlen] at h
        cases h

theorem mem_buildUniverse {parse : String → List ParsedClass} {fileIndex : FileIndex}
    {entryClassName : String} {c x : String} {fileInfo : FileEntry} {ci : ParsedClass}
    (hidx : mapGet fileIndex c = some fileInfo)
    (hci : ci ∈ parse fileInfo.path)
    (hx : x ∈ expandWildcardDependencies ci.dependencies fileIndex) :
    x ∈ buildUniverse parse fileIndex entryClassName := by
  unfold buildUniverse
  refine List.mem_cons_of_mem _ (List.mem_flatMap.mpr ⟨(c, fileInfo), mapGet_some_mem hidx, ?_⟩)
  exact List.mem_flatMap.mpr ⟨ci, hci, hx⟩

theorem length_filter_le_of_imp {α : Type} (p q : α → Bool) (l : List α)
    (himp : ∀ x, q x = true → p x = true) :
    (l.filter q).length ≤ (l.filter p).length := by
  induction l with
  | nil => simp
  | cons a as ih =>
      by_cases hq : q a = true
      · rw [List.filter_cons_of_pos hq, List.filter_cons_of_pos (himp a hq)]
        simpa using ih
      · rw [List.filter_cons_of_neg hq]
        by_cases hp : p a = true
        · rw [List.filter_cons_of_pos hp]
          exact Nat.le_succ_of_le ih
        · rw [List.filter_cons_of_neg hp]
          exact ih

theorem length_filter_visited_lt {U v : List String} {c : String}
    (hcU : c ∈ U) (hcv : c ∉ v) :
    (U.filter (fun x => x ∉ v ++ [c])).length < (U.filter (fun x => x ∉ v)).length := by
  induction U with
  | nil => cases hcU
  | cons u us ih =>
      have himp : ∀ x : String, (decide (x ∉ v ++ [c])) = true → (decide (x ∉ v)) = true := by
        intro x hx
        have := of_decide_eq_true hx
        simp only [List.mem_append] at this
        exact decide_eq_true (fun hm => this (Or.inl hm))
      by_cases hu : u = c
      · rw [hu]
        rw [@List.filter_cons_of_neg _ (fun x => decide (x ∉ v ++ [c])) c us (by simp),
          @List.filter_cons_of_pos _ (fun x => decide (x ∉ v)) c us (by simpa using hcv)]
        exact Nat.lt_succ_of_le (length_filter_le_of_imp _ _ us himp)
      · have hcus : c ∈ us := by
          rcases List.mem_cons.mp hcU with h | h
          · exact absurd h.symm hu
          · exact h
        by_cases hq : (decide (u ∉ v ++ [c])) = true
        · rw [@List.filter_cons_of_pos _ (fun x => decide (x ∉ v ++ [c])) u us hq,
            @List.filter_cons_of_pos _ (fun x => decide (x ∉ v)) u us (himp u hq)]
          simpa using ih hcus
        · rw [@List.filter_cons_of_neg _ (fun x => decide (x ∉ v ++ [c])) u us hq]
          by_cases hp : (decide (u ∉ v)) = true
          · rw [@List.filter_cons_of_pos _ (fun x => decide (x ∉ v)) u us hp]
            exact Nat.lt_succ_of_lt (ih hcus)
          · rw [@List.filter_cons_of_neg _ (fun x => decide (x ∉ v)) u us hp]
            exact ih hcus

theorem buildStep_inv {parse : String → List ParsedClass} {contentOf : String → String}
    {fileIndex : FileIndex} {entryClassName : String} {c : String} {rest : List String}
    {s : BuildState} (hq : s.queue = c :: rest)
    (hinv : BuildInv parse fileIndex entryClassName s) :
    BuildInv parse fileIndex entryClassName (buildStep parse contentOf fileIndex c rest s) ∧
    (buildStep parse contentOf fileIndex c rest s).visited = s.visited ++ [c] := by
  obtain ⟨hproc, hnodup, hqueue, hc2f⟩ := hinv
  have hcq : c ∈ s.queue := hq ▸ List.mem_cons_self _ _
  have hcvis : c ∉ s.visited := (hqueue c hcq).2
  have hcrest : c ∉ rest := by
    have := hq ▸ hnodup
    exact (List.nodup_cons.mp this).1
  have hrest : ∀ x ∈ rest, x ∈ buildUniverse parse fileIndex entryClassName ∧ x ∉ s.visited :=
    fun x hx => hqueue x (hq ▸ List.mem_cons_of_mem _ hx)
  have hrestnd : rest.Nodup := (List.nodup_cons.mp (hq ▸ hnodup)).2
  have hrestvis : ∀ x ∈ rest, x ∉ s.visited ++ [c] := by
    intro x hx
    simp only [List.mem_append, List.mem_singleton]
    rintro (h | h)
    · exact (hrest x hx).2 h
    · exact hcrest (h ▸ hx)
  have hc2f' : ∀ p ∈ s.classToFile, p.1 ∈ s.visited ++ [c] :=
    fun p hp => List.mem_append.mpr (Or.inl (hc2f p hp))
  have herase : (s.processing ++ [c]).erase c = [] := by
    rw [hproc]
    simp
  have hproc2 : c ∉ s.processing := by rw [hproc]; simp
  unfold buildStep
  rw [if_neg hcvis, if_neg hproc2]
  cases hidx : mapGet fileIndex c with
  | none =>
      refine ⟨⟨by simpa using herase, hrestnd, ?_, hc2f'⟩, rfl⟩
      intro x hx
      exact ⟨(hrest x hx).1, hrestvis x hx⟩
  | some fileInfo =>
      have hdup : (mapGet s.classToFile c).elim false
          (fun existingFile => existingFile != fileInfo.path) = false := by
        have hnone : mapGet s.classToFile c = none := by
          apply mapGet_eq_none
          intro p hp hpc
          exact hcvis (hpc ▸ hc2f p hp)
        rw [hnone]
        rfl
      simp only [hdup, Bool.false_eq_true, if_false]
      cases hci : findClassInfo (parse fileInfo.path) c with
      | none =>
          refine ⟨⟨by simpa using herase, hrestnd, ?_, ?_⟩, rfl⟩
          · intro x hx
            exact ⟨(hrest x hx).1, hrestvis x hx⟩
          · intro p hp
            rcases mapSet_mem p hp with h | h
            · simp [h]
            · exact List.mem_append.mpr (Or.inl (hc2f p h))
      | some classInfo =>
          constructor
          · refine ⟨by simpa using herase, ?_, ?_, ?_⟩
            · exact foldl_setAdd_nodup _ rest hrestnd
            · intro x hx
              rcases (foldl_setAdd_mem _ rest x).mp hx with h | h
              · exact ⟨(hrest x h).1, hrestvis x h⟩
              · have hfilt := List.mem_filter.mp h
                have hU := @mem_buildUniverse parse fileIndex entryClassName c x
                  fileInfo classInfo hidx (findClassInfo_mem hci) hfilt.1
                refine ⟨hU, ?_⟩
                have hh := hfilt.2
                simp only [Bool.and_eq_true, decide_eq_true_eq] at hh
                exact hh.1
            · intro p hp
              rcases mapSet_mem p hp with h | h
              · simp [h]
              · exact List.mem_append.mpr (Or.inl (hc2f p h))
          · rfl

theorem buildLoop_isSome {parse : String → List ParsedClass} {contentOf : String → String}
    {fileIndex : FileIndex} {entryClassName : String} :
    ∀ (fuel : Nat) (s : BuildState), BuildInv parse fileIndex entryClassName s →
      ((buildUniverse parse fileIndex entryClassName).filter
        (fun x => x ∉ s.visited)).length < fuel →
      (buildLoop parse contentOf fileIndex fuel s).isSome = true := by
  intro fuel
  induction fuel with
  | zero => intro s _ hlt; omega
  | succ n ih =>
      intro s hinv hlt
      unfold buildLoop
      cases hq : s.queue with
      | nil => rfl
      | cons c rest =>
          obtain ⟨hinv', hvis⟩ := buildStep_inv hq hinv
          apply ih _ hinv'
          rw [hvis]
          have hcU : c ∈ buildUniverse parse fileIndex entryClassName :=
            (hinv.2.2.1 c (hq ▸ List.mem_cons_self _ _)).1
          have hcv : c ∉ s.visited := (hinv.2.2.1 c (hq ▸ List.mem_cons_self _ _)).2
          have := length_filter_visited_lt (v := s.visited) hcU hcv
          omega

/-- C5: for every parse function, content function, file index and entry
name, the graph builder terminates with a result (the worklist is bounded
by the enqueueable universe, each name being finalized at most once); on
the concrete circular index `A → B → A` the builder and sorter both run to
completion and the sorted output contains `A` and `B` each exactly once. -/
theorem c5_termination_and_cycle :
    (∀ (parse : String → List ParsedClass) (contentOf : String → String)
      (fileIndex : FileIndex) (entryClassName : String),
      (buildDependencyGraphFromEntry parse contentOf fileIndex entryClassName).isSome = true) ∧
    (buildDependencyGraphFromEntry cycParse (fun _ => "") cycIndex "A").map
      (fun r => ((topologicalSortRequired r.requiredFiles).countP (fun f => f.className = "A"),
                 (topologicalSortRequired r.requiredFiles).countP (fun f => f.className = "B"))) =
      some (1, 1) := by
  constructor
  · intro parse contentOf fileIndex entryClassName
    unfold buildDependencyGraphFromEntry
    have hinv : BuildInv parse fileIndex entryClassName
        { requiredClasses := [], requiredFiles := [], visited := [],
          processing := [], classToFile := [], queue := [entryClassName] } := by
      refine ⟨rfl, List.nodup_singleton _, ?_, by simp⟩
      intro x hx
      simp only [List.mem_singleton] at hx
      subst hx
      exact ⟨List.mem_cons_self _ _, by simp⟩
    have hlt : ((buildUniverse parse fileIndex entryClassName).filter
        (fun x => x ∉ ([] : List String))).length <
        (buildUniverse parse fileIndex entryClassName).length + 1 := by
      have : (buildUniverse parse fileIndex entryClassName).filter
          (fun x => x ∉ ([] : List String)) = buildUniverse parse fileIndex entryClassName := by
        rw [List.filter_eq_self]
        intro a _
        simp
      rw [this]
      omega
    have hsome := @buildLoop_isSome parse contentOf fileIndex entryClassName
      ((buildUniverse parse fileIndex entryClassName).length + 1) _ hinv hlt
    cases hloop : buildLoop parse contentOf fileIndex
        ((buildUniverse parse fileIndex entryClassName).length + 1)
        { requiredClasses := [], requiredFiles := [], visited := [],
          processing := [], classToFile := [], queue := [entryClassName] } with
    | none => rw [hloop] at hsome; cases hsome
    | some s =>
        simp only [hloop]
        rfl
  · decide

/-! ## Claim C2 — duplicate class definitions -/

/-- C2: when two files both declare `NS.Foo` and are discovered in walk
order `f1.js` then `f2.js`, the index-update of `indexJsFilesInDirectory`
(`fileIndex.set`, lines 477-483) overwrites, so the name is bound to the
file discovered last; the built output then contains `NS.Foo` exactly
once, bound to `f2.js` — not, as the claim and the builder's own
"Using first definition" diagnostic (lines 1139-1143) say, to the first
file.  The duplicate-definition branch itself (lines 1136-1147) can never
fire: `classToFileMap` only binds names already in `visited`, and visited
names are skipped at line 1096 before the branch is reached. -/
theorem c2_duplicate_binds_last_file :
    mapGet (indexDiscoveredClasses dupDiscoveries []) "NS.Foo" =
      some { path := "f2.js", isExtJS := false } ∧
    (buildDependencyGraphFromEntry dupParse (fun _ => "")
        (indexDiscoveredClasses dupDiscoveries []) "NS.Foo").map
      (fun r => (r.requiredFiles.map (fun f => (f.className, f.filePath)),
                 r.requiredFiles.countP (fun f => f.className = "NS.Foo"))) =
      some ([("NS.Foo", "f2.js")], 1) := by
  refine ⟨by decide, by decide⟩

/-! ## Claim C7 — unresolvable entry name -/

/-- C7: when the entry name cannot be resolved through the index, the
builder returns an empty required set, not a one-file set.  The fallback
at lines 1231-1255 re-reads the same `fileIndex` that already failed
(`fileIndex.get(entryClassName)`), and the fallback is only reached when
`requiredClasses` is empty — which forces that lookup to fail, since any
successful lookup during the loop would have populated `requiredClasses`
(line 1149).  Here: an empty index and entry `NS.App`. -/
theorem c7_unresolved_entry_yields_empty :
    buildDependencyGraphFromEntry (fun _ => []) (fun _ => "") [] "NS.App" =
      some { requiredClasses := [], requiredFiles := [] } := by
  decide

/-! ## The depth-first sorter: unfolding equations and state ordering -/

theorem visit_zero (regularFiles : List ReqFile) (className : String) (s : SortState) :
    visit regularFiles 0 className s = s := rfl

theorem visit_of_mem_visiting {regularFiles : List ReqFile} {className : String}
    {s : SortState} (fuel : Nat) (h : className ∈ s.visiting) :
    visit regularFiles fuel className s = s := by
  cases fuel with
  | zero => rfl
  | succ n => simp only [visit, if_pos h]

theorem visit_of_mem_visited {regularFiles : List ReqFile} {className : String}
    {s : SortState} (fuel : Nat) (h1 : className ∉ s.visiting) (h2 : className ∈ s.visited) :
    visit regularFiles fuel className s = s := by
  cases fuel with
  | zero => rfl
  | succ n => simp only [visit, if_neg h1, if_pos h2]

theorem visit_main {regularFiles : List ReqFile} {className : String} {s : SortState}
    (fuel : Nat) (h1 : className ∉ s.visiting) (h2 : className ∉ s.visited) :
    visit regularFiles (fuel + 1) className s =
      (let s2 := (graphDeps regularFiles className).foldl
        (fun st dep => visit regularFiles fuel dep st)
        { s with visiting := s.visiting ++ [className] }
      match lookupFile regularFiles className with
      | some file =>
          { visiting := s2.visiting.erase className
            visited := s2.visited ++ [className]
            sorted := s2.sorted ++ [file] }
      | none =>
          { visiting := s2.visiting.erase className
            visited := s2.visited ++ [className]
            sorted := s2.sorted }) := by
  simp only [visit, if_neg h1, if_neg h2]

theorem sortStateLe_refl (s : SortState) : SortStateLe s s :=
  ⟨⟨[], by simp⟩, ⟨[], by simp⟩⟩

theorem sortStateLe_trans {s1 s2 s3 : SortState}
    (h12 : SortStateLe s1 s2) (h23 : SortStateLe s2 s3) : SortStateLe s1 s3 := by
  obtain ⟨⟨t1, ht1⟩, ⟨u1, hu1⟩⟩ := h12
  obtain ⟨⟨t2, ht2⟩, ⟨u2, hu2⟩⟩ := h23
  exact ⟨⟨t1 ++ t2, by rw [ht2, ht1, List.append_assoc]⟩,
         ⟨u1 ++ u2, by rw [hu2, hu1, List.append_assoc]⟩⟩

theorem sortStateLe_mem_visited {s s' : SortState} (h : SortStateLe s s')
    {x : String} (hx : x ∈ s.visited) : x ∈ s'.visited := by
  obtain ⟨⟨t, ht⟩, _⟩ := h
  rw [ht]
  exact List.mem_append.mpr (Or.inl hx)

theorem sortStateLe_mem_sorted {s s' : SortState} (h : SortStateLe s s')
    {g : ReqFile} (hg : g ∈ s.sorted) : g ∈ s'.sorted := by
  obtain ⟨_, ⟨t, ht⟩⟩ := h
  rw [ht]
  exact List.mem_append.mpr (Or.inl hg)

theorem nodup_append_singleton {α : Type} {l : List α} {c : α}
    (h : l.Nodup) (hc : c ∉ l) : (l ++ [c]).Nodup := by
  rw [List.nodup_append]
  exact ⟨h, List.nodup_singleton c, by simpa [List.disjoint_singleton] using hc⟩

theorem sortMeasure_congr {regularFiles : List ReqFile} {s s' : SortState}
    (h : s'.visiting = s.visiting) :
    sortMeasure regularFiles s' = sortMeasure regularFiles s := by
  unfold sortMeasure
  rw [h]

theorem visit_general (regularFiles : List ReqFile) :
    ∀ (fuel : Nat) (className : String) (s : SortState),
      className ∈ graphKeys regularFiles →
      sortMeasure regularFiles s ≤ fuel →
      GSortInv regularFiles s →
      GSortInv regularFiles (visit regularFiles fuel className s) ∧
      SortStateLe s (visit regularFiles fuel className s) ∧
      (visit regularFiles fuel className s).visiting = s.visiting ∧
      (className ∈ (visit regularFiles fuel className s).visited ∨ className ∈ s.visiting) ∧
      (∀ x ∈ (visit regularFiles fuel className s).visited,
        x ∈ s.visited ∨ x ∉ s.visiting) := by
  intro fuel
  induction fuel with
  | zero =>
      intro c s hc hm hinv
      have hcin : c ∈ s.visiting := by
        by_contra hcv
        have hmem : c ∈ (graphKeys regularFiles).filter (fun n => n ∉ s.visiting) :=
          List.mem_filter.mpr ⟨hc, by simpa using hcv⟩
        have hpos : 0 < ((graphKeys regularFiles).filter (fun n => n ∉ s.visiting)).length :=
          List.length_pos.mpr (List.ne_nil_of_mem hmem)
        unfold sortMeasure at hm
        omega
      rw [visit_zero]
      exact ⟨hinv, sortStateLe_refl s, rfl, Or.inr hcin, fun x hx => Or.inl hx⟩
  | succ n ih =>
      intro c s hc hm hinv
      by_cases h1 : c ∈ s.visiting
      · rw [visit_of_mem_visiting _ h1]
        exact ⟨hinv, sortStateLe_refl s, rfl, Or.inr h1, fun x hx => Or.inl hx⟩
      by_cases h2 : c ∈ s.visited
      · rw [visit_of_mem_visited _ h1 h2]
        exact ⟨hinv, sortStateLe_refl s, rfl, Or.inl h2, fun x hx => Or.inl hx⟩
      have hfold : ∀ (l : List String) (st : SortState),
          (∀ d ∈ l, d ∈ graphKeys regularFiles) →
          sortMeasure regularFiles st ≤ n →
          GSortInv regularFiles st →
          GSortInv regularFiles (l.foldl (fun st dep => visit regularFiles n dep st) st) ∧
          SortStateLe st (l.foldl (fun st dep => visit regularFiles n dep st) st) ∧
          (l.foldl (fun st dep => visit regularFiles n dep st) st).visiting = st.visiting ∧
          (∀ d ∈ l, d ∈ (l.foldl (fun st dep => visit regularFiles n dep st) st).visited ∨
            d ∈ st.visiting) ∧
          (∀ x ∈ (l.foldl (fun st dep => visit regularFiles n dep st) st).visited,
            x ∈ st.visited ∨ x ∉ st.visiting) := by
        intro l
        induction l with
        | nil =>
            intro st _ _ hstinv
            exact ⟨hstinv, sortStateLe_refl st, rfl, by simp, fun x hx => Or.inl hx⟩
        | cons d ds ihl =>
            intro st hdl hstm hstinv
            obtain ⟨hinv1, hle1, hvis1, hmem1, hnew1⟩ :=
              ih d st (hdl d (List.mem_cons_self _ _)) hstm hstinv
            have hm1 : sortMeasure regularFiles (visit regularFiles n d st) ≤ n := by
              rw [sortMeasure_congr hvis1]
              exact hstm
            obtain ⟨hinv2, hle2, hvis2, hmem2, hnew2⟩ :=
              ihl (visit regularFiles n d st)
                (fun d' hd' => hdl d' (List.mem_cons_of_mem _ hd')) hm1 hinv1
            rw [List.foldl_cons]
            refine ⟨hinv2, sortStateLe_trans hle1 hle2, by rw [hvis2, hvis1], ?_, ?_⟩
            · intro d' hd'
              rcases List.mem_cons.mp hd' with heq | hd'
              · subst heq
                rcases hmem1 with h | h
                · exact Or.inl (sortStateLe_mem_visited hle2 h)
                · exact Or.inr h
              · rcases hmem2 d' hd' with h | h
                · exact Or.inl h
                · exact Or.inr (hvis1 ▸ h)
            · intro x hx
              rcases hnew2 x hx with h | h
              · exact hnew1 x h
              · exact Or.inr (by rw [hvis1] at h; exact h)
      have hm1 : sortMeasure regularFiles { s with visiting := s.visiting ++ [c] } ≤ n := by
        have hlt := length_filter_visited_lt (U := graphKeys regularFiles)
          (v := s.visiting) hc h1
        unfold sortMeasure at hm ⊢
        simp only at hlt ⊢
        omega
      obtain ⟨hinv2, hle2, hvis2, hdeps, hnew2⟩ :=
        hfold (graphDeps regularFiles c)
          { s with visiting := s.visiting ++ [c] }
          (fun d hd => graphDeps_subset_keys hd) hm1 hinv
      have hcnot2 : c ∉ ((graphDeps regularFiles c).foldl
          (fun st dep => visit regularFiles n dep st)
          { s with visiting := s.visiting ++ [c] }).visited := by
        intro hcmem
        rcases hnew2 c hcmem with h | h
        · exact h2 h
        · exact h (by simp)
      obtain ⟨file, hlf⟩ := lookupFile_isSome_of_mem (mem_graphKeys.mp hc)
      obtain ⟨hfR, hfname⟩ := lookupFile_some hlf
      rw [visit_main n h1 h2]
      simp only [hlf]
      have herase : (((graphDeps regularFiles c).foldl
          (fun st dep => visit regularFiles n dep st)
          { s with visiting := s.visiting ++ [c] }).visiting).erase c =
          s.visiting := by
        rw [hvis2]
        exact erase_append_singleton h1
      obtain ⟨⟨tv, htv⟩, ⟨ts, hts⟩⟩ := hle2
      refine ⟨⟨?_, ?_, ?_, ?_⟩, ⟨⟨tv ++ [c], ?_⟩, ⟨ts ++ [file], ?_⟩⟩,
        herase, Or.inl (by simp), ?_⟩
      · exact nodup_append_singleton hinv2.1 hcnot2
      · intro x hx
        rcases List.mem_append.mp hx with h | h
        · exact hinv2.2.1 x h
        · rw [List.mem_singleton.mp h]
          exact hc
      · rw [List.map_append]
        simp only [List.map_cons, List.map_nil, hfname]
        exact List.Perm.append hinv2.2.2.1 (List.Perm.refl [c])
      · intro g hg
        rcases List.mem_append.mp hg with h | h
        · exact hinv2.2.2.2 g h
        · rw [List.mem_singleton.mp h]
          exact hfR
      · show _ ++ [c] = s.visited ++ (tv ++ [c])
        rw [htv]
        simp
      · show _ ++ [file] = s.sorted ++ (ts ++ [file])
        rw [hts]
        simp
      · intro x hx
        rcases List.mem_append.mp hx with h | h
        · rcases hnew2 x h with h' | h'
          · exact Or.inl h'
          · refine Or.inr (fun hxv => h' ?_)
            simp only [List.mem_append]
            exact Or.inl hxv
        · rw [List.mem_singleton.mp h]
          exact Or.inr h1

/-! ## The stable priority sort -/

theorem insertByPriority_perm (f : ReqFile) (l : List ReqFile) :
    (insertByPriority f l).Perm (f :: l) := by
  induction l with
  | nil => exact List.Perm.refl _
  | cons g gs ih =>
      unfold insertByPriority
      by_cases h : f.priority < g.priority
      · rw [if_pos h]
      · rw [if_neg h]
        exact List.Perm.trans (List.Perm.cons g ih) (List.Perm.swap f g gs)

theorem sortByPriority_perm (l : List ReqFile) : (sortByPriority l).Perm l := by
  unfold sortByPriority
  suffices h : ∀ (l acc : List ReqFile),
      (l.foldl (fun acc f => insertByPriority f acc) acc).Perm (acc ++ l) by
    simpa using h l []
  intro l
  induction l with
  | nil => intro acc; simp
  | cons f fs ih =>
      intro acc
      rw [List.foldl_cons]
      refine List.Perm.trans (ih (insertByPriority f acc)) ?_
      refine List.Perm.trans (List.Perm.append (insertByPriority_perm f acc) (List.Perm.refl fs)) ?_
      exact List.perm_middle.symm

theorem insertByPriority_pairwise (f : ReqFile) (l : List ReqFile)
    (h : List.Pairwise (fun a b => a.priority ≤ b.priority) l) :
    List.Pairwise (fun a b => a.priority ≤ b.priority) (insertByPriority f l) := by
  induction l with
  | nil => simp [insertByPriority]
  | cons g gs ih =>
      unfold insertByPriority
      rcases List.pairwise_cons.mp h with ⟨hg, hgs⟩
      by_cases hfg : f.priority < g.priority
      · rw [if_pos hfg]
        refine List.pairwise_cons.mpr ⟨?_, h⟩
        intro x hx
        rcases List.mem_cons.mp hx with heq | hx
        · rw [heq]; exact le_of_lt hfg
        · exact le_trans (le_of_lt hfg) (hg x hx)
      · rw [if_neg hfg]
        refine List.pairwise_cons.mpr ⟨?_, ih hgs⟩
        intro x hx
        have hx' := (insertByPriority_perm f gs).mem_iff.mp hx
        rcases List.mem_cons.mp hx' with heq | hx'
        · rw [heq]
          exact le_of_not_lt hfg
        · exact hg x hx'

theorem sortByPriority_pairwise (l : List ReqFile) :
    List.Pairwise (fun a b => a.priority ≤ b.priority) (sortByPriority l) := by
  unfold sortByPriority
  suffices h : ∀ (l acc : List ReqFile),
      List.Pairwise (fun a b => a.priority ≤ b.priority) acc →
      List.Pairwise (fun a b => a.priority ≤ b.priority)
        (l.foldl (fun acc f => insertByPriority f acc) acc) by
    exact h l [] List.Pairwise.nil
  intro l
  induction l with
  | nil => intro acc hacc; simpa using hacc
  | cons f fs ih =>
      intro acc hacc
      rw [List.foldl_cons]
      exact ih _ (insertByPriority_pairwise f acc hacc)

/-! ## The top-level traversal over all graph nodes -/

theorem foldl_visit_general (regularFiles : List ReqFile) (F : Nat) :
    ∀ (l : List String) (s : SortState),
      (∀ d ∈ l, d ∈ graphKeys regularFiles) →
      sortMeasure regularFiles s ≤ F →
      GSortInv regularFiles s →
      GSortInv regularFiles (l.foldl (fun st c => visit regularFiles F c st) s) ∧
      SortStateLe s (l.foldl (fun st c => visit regularFiles F c st) s) ∧
      (l.foldl (fun st c => visit regularFiles F c st) s).visiting = s.visiting ∧
      (∀ d ∈ l, d ∈ (l.foldl (fun st c => visit regularFiles F c st) s).visited ∨
        d ∈ s.visiting) := by
  intro l
  induction l with
  | nil =>
      intro s _ _ hinv
      exact ⟨hinv, sortStateLe_refl s, rfl, by simp⟩
  | cons c cs ih =>
      intro s hl hm hinv
      obtain ⟨hinv1, hle1, hvis1, hmem1, _⟩ :=
        visit_general regularFiles F c s (hl c (List.mem_cons_self _ _)) hm hinv
      have hm1 : sortMeasure regularFiles (visit regularFiles F c s) ≤ F := by
        rw [sortMeasure_congr hvis1]
        exact hm
      obtain ⟨hinv2, hle2, hvis2, hmem2⟩ :=
        ih (visit regularFiles F c s) (fun d hd => hl d (List.mem_cons_of_mem _ hd)) hm1 hinv1
      rw [List.foldl_cons]
      refine ⟨hinv2, sortStateLe_trans hle1 hle2, by rw [hvis2, hvis1], ?_⟩
      intro d hd
      rcases List.mem_cons.mp hd with heq | hd
      · subst heq
        rcases hmem1 with h | h
        · exact Or.inl (sortStateLe_mem_visited hle2 h)
        · exact Or.inr h
      · rcases hmem2 d hd with h | h
        · exact Or.inl h
        · exact Or.inr (hvis1 ▸ h)

theorem getLast?_eq_of_all_eq {α : Type} {l : List α} {g : α}
    (hne : l ≠ []) (hall : ∀ x ∈ l, x = g) : l.getLast? = some g := by
  induction l with
  | nil => exact absurd rfl hne
  | cons a as ih =>
      cases has : as with
      | nil =>
          subst has
          simp [List.getLast?, hall a (List.mem_cons_self _ _)]
      | cons b bs =>
          rw [List.getLast?_cons_cons]
          rw [← has]
          exact ih (by simp [has]) (fun x hx => hall x (List.mem_cons_of_mem _ hx))

theorem lookupFile_of_nodup {regularFiles : List ReqFile} {g : ReqFile}
    (hnodup : (regularFiles.map (fun f => f.className)).Nodup)
    (hg : g ∈ regularFiles) : lookupFile regularFiles g.className = some g := by
  unfold lookupFile
  apply getLast?_eq_of_all_eq
  · intro hnil
    have : g ∈ regularFiles.filter (fun f => f.className = g.className) :=
      List.mem_filter.mpr ⟨hg, by simp⟩
    simp [hnil] at this
  · intro x hx
    have hx' := List.mem_filter.mp hx
    exact List.inj_on_of_nodup_map hnodup hx'.1 hg (of_decide_eq_true hx'.2)

/-! ## Claim C10 — the sorter permutes its input -/

/-- C10: on any input whose class names are pairwise distinct — the shape
the deduplicated builder output always has — the sorter returns a
permutation of its input: no file is dropped, none is duplicated, cycles
included. -/
theorem c10_sorter_permutes (files : List ReqFile)
    (hnodup : (files.map (fun f => f.className)).Nodup) :
    (topologicalSortRequired files).Perm files := by
  have hRnodup : ((files.filter (fun f => !f.isCore)).map (fun f => f.className)).Nodup :=
    hnodup.sublist ((List.filter_sublist _).map _)
  have hkeys : graphKeys (files.filter (fun f => !f.isCore)) =
      (files.filter (fun f => !f.isCore)).map (fun f => f.className) :=
    dedupKeepFirst_eq_self hRnodup
  have hminit : sortMeasure (files.filter (fun f => !f.isCore))
      { visited := [], visiting := [], sorted := [] } ≤
      (files.filter (fun f => !f.isCore)).length + 1 := by
    show (((dedupKeepFirst ((files.filter (fun f => !f.isCore)).map (fun f => f.className)))).filter
      (fun n => n ∉ ([] : List String))).length ≤ _
    have h1 := List.length_filter_le (fun n => decide (n ∉ ([] : List String)))
      (dedupKeepFirst ((files.filter (fun f => !f.isCore)).map (fun f => f.className)))
    have h2 := length_dedupKeepFirst_le
      ((files.filter (fun f => !f.isCore)).map (fun f => f.className))
    rw [List.length_map] at h2
    omega
  have hinvinit : GSortInv (files.filter (fun f => !f.isCore))
      { visited := [], visiting := [], sorted := [] } :=
    ⟨List.nodup_nil, by simp, by simp, by simp⟩
  obtain ⟨hinvF, hleF, hvisF, hmemF⟩ :=
    foldl_visit_general (files.filter (fun f => !f.isCore))
      ((files.filter (fun f => !f.isCore)).length + 1)
      (graphKeys (files.filter (fun f => !f.isCore)))
      { visited := [], visiting := [], sorted := [] }
      (fun d hd => hd) hminit hinvinit
  have hkeysub : ∀ k ∈ graphKeys (files.filter (fun f => !f.isCore)),
      k ∈ ((graphKeys (files.filter (fun f => !f.isCore))).foldl
        (fun st c => visit (files.filter (fun f => !f.isCore))
          ((files.filter (fun f => !f.isCore)).length + 1) c st)
        { visited := [], visiting := [], sorted := [] }).visited := by
    intro k hk
    rcases hmemF k hk with h | h
    · exact h
    · simp at h
  have hvperm : (((graphKeys (files.filter (fun f => !f.isCore))).foldl
      (fun st c => visit (files.filter (fun f => !f.isCore))
        ((files.filter (fun f => !f.isCore)).length + 1) c st)
      { visited := [], visiting := [], sorted := [] }).visited).Perm
      (graphKeys (files.filter (fun f => !f.isCore))) := by
    refine List.Subperm.antisymm ?_ ?_
    · exact hinvF.1.subperm (fun x hx => hinvF.2.1 x hx)
    · exact (nodup_dedupKeepFirst _).subperm hkeysub
  have hnames : ((((graphKeys (files.filter (fun f => !f.isCore))).foldl
      (fun st c => visit (files.filter (fun f => !f.isCore))
        ((files.filter (fun f => !f.isCore)).length + 1) c st)
      { visited := [], visiting := [], sorted := [] }).sorted).map
        (fun f => f.className)).Perm
      ((files.filter (fun f => !f.isCore)).map (fun f => f.className)) := by
    refine hinvF.2.2.1.trans (hvperm.trans ?_)
    rw [hkeys]
  have hlook1 : (((graphKeys (files.filter (fun f => !f.isCore))).foldl
      (fun st c => visit (files.filter (fun f => !f.isCore))
        ((files.filter (fun f => !f.isCore)).length + 1) c st)
      { visited := [], visiting := [], sorted := [] }).sorted).map
        (fun f => lookupFile (files.filter (fun f => !f.isCore)) f.className) =
      (((graphKeys (files.filter (fun f => !f.isCore))).foldl
      (fun st c => visit (files.filter (fun f => !f.isCore))
        ((files.filter (fun f => !f.isCore)).length + 1) c st)
      { visited := [], visiting := [], sorted := [] }).sorted).map some :=
    List.map_congr_left (fun g hg => lookupFile_of_nodup hRnodup (hinvF.2.2.2 g hg))
  have hlook2 : (files.filter (fun f => !f.isCore)).map
        (fun f => lookupFile (files.filter (fun f => !f.isCore)) f.className) =
      (files.filter (fun f => !f.isCore)).map some :=
    List.map_congr_left (fun g hg => lookupFile_of_nodup hRnodup hg)
  have hsorted : (((graphKeys (files.filter (fun f => !f.isCore))).foldl
      (fun st c => visit (files.filter (fun f => !f.isCore))
        ((files.filter (fun f => !f.isCore)).length + 1) c st)
      { visited := [], visiting := [], sorted := [] }).sorted).Perm
      (files.filter (fun f => !f.isCore)) := by
    have hperm2 := hnames.map (fun n => lookupFile (files.filter (fun f => !f.isCore)) n)
    rw [List.map_map, List.map_map] at hperm2
    simp only [Function.comp_def] at hperm2
    rw [hlook1, hlook2] at hperm2
    have hperm3 := hperm2.map (fun o => o.getD blankReqFile)
    rw [List.map_map, List.map_map] at hperm3
    simpa [Function.comp_def] using hperm3
  show (sortByPriority (files.filter (fun f => f.isCore)) ++ _).Perm files
  refine List.Perm.trans
    (List.Perm.append (sortByPriority_perm (files.filter (fun f => f.isCore))) hsorted) ?_
  exact List.filter_append_perm _ files

/-- C10 (witness): the theorem applied to the circular pair
`A → B → A`. -/
theorem c10_sorter_permutes_witness :
    (([cycFileA, cycFileB].map (fun f => f.className)).Nodup) ∧
    (topologicalSortRequired [cycFileA, cycFileB]).Perm [cycFileA, cycFileB] :=
  ⟨by decide, c10_sorter_permutes [cycFileA, cycFileB] (by decide)⟩

/-! ## Claim C6 — core files precede application files -/

theorem concatAll_append (a b : List String) :
    concatAll (a ++ b) = concatAll a ++ concatAll b := by
  induction a with
  | nil =>
      show concatAll b = "" ++ concatAll b
      rw [String.empty_append]
  | cons s as ih =>
      show s ++ concatAll (as ++ b) = (s ++ concatAll as) ++ concatAll b
      rw [ih, String.append_assoc]

/-- C6: for every input list, the sorter's output is a core segment
followed by a non-core segment, the core files among themselves in
ascending priority order; and the assembled bundle text is the banner and
prelude, then the core files' chunks, then the application files' chunks,
then the closing block — so every core chunk precedes every
application-class chunk regardless of the declared dependency order. -/
theorem c6_core_first (patchCore patchApp : String → String)
    (cache : String → Option String) (timestamp preludeText closingText : String)
    (files : List ReqFile) :
    ∃ coreFs regFs : List ReqFile,
      topologicalSortRequired files = coreFs ++ regFs ∧
      (∀ f ∈ coreFs, f.isCore = true) ∧
      (∀ f ∈ regFs, f.isCore = false) ∧
      List.Pairwise (fun a b => a.priority ≤ b.priority) coreFs ∧
      concatenateRequiredFiles patchCore patchApp cache timestamp preludeText closingText
          (topologicalSortRequired files) =
        bannerText timestamp (topologicalSortRequired files).length ++ preludeText ++
        concatAll (coreFs.flatMap (segmentChunks patchCore patchApp cache)) ++
        concatAll (regFs.flatMap (segmentChunks patchCore patchApp cache)) ++
        closingText := by
  have hminit : sortMeasure (files.filter (fun f => !f.isCore))
      { visited := [], visiting := [], sorted := [] } ≤
      (files.filter (fun f => !f.isCore)).length + 1 := by
    show (((dedupKeepFirst ((files.filter (fun f => !f.isCore)).map (fun f => f.className)))).filter
      (fun n => n ∉ ([] : List String))).length ≤ _
    have h1 := List.length_filter_le (fun n => decide (n ∉ ([] : List String)))
      (dedupKeepFirst ((files.filter (fun f => !f.isCore)).map (fun f => f.className)))
    have h2 := length_dedupKeepFirst_le
      ((files.filter (fun f => !f.isCore)).map (fun f => f.className))
    rw [List.length_map] at h2
    omega
  have hinvinit : GSortInv (files.filter (fun f => !f.isCore))
      { visited := [], visiting := [], sorted := [] } :=
    ⟨List.nodup_nil, by simp, by simp, by simp⟩
  obtain ⟨hinvF, _, _, _⟩ :=
    foldl_visit_general (files.filter (fun f => !f.isCore))
      ((files.filter (fun f => !f.isCore)).length + 1)
      (graphKeys (files.filter (fun f => !f.isCore)))
      { visited := [], visiting := [], sorted := [] }
      (fun d hd => hd) hminit hinvinit
  refine ⟨sortByPriority (files.filter (fun f => f.isCore)),
    ((graphKeys (files.filter (fun f => !f.isCore))).foldl
      (fun st c => visit (files.filter (fun f => !f.isCore))
        ((files.filter (fun f => !f.isCore)).length + 1) c st)
      { visited := [], visiting := [], sorted := [] }).sorted,
    rfl, ?_, ?_, sortByPriority_pairwise _, ?_⟩
  · intro f hf
    have hmem := (sortByPriority_perm (files.filter (fun g => g.isCore))).mem_iff.mp hf
    exact (List.mem_filter.mp hmem).2
  · intro f hf
    have hfR := hinvF.2.2.2 f hf
    have hcore := (List.mem_filter.mp hfR).2
    simpa using hcore
  · unfold concatenateRequiredFiles
    rw [show topologicalSortRequired files =
        sortByPriority (files.filter (fun f => f.isCore)) ++
        ((graphKeys (files.filter (fun f => !f.isCore))).foldl
          (fun st c => visit (files.filter (fun f => !f.isCore))
            ((files.filter (fun f => !f.isCore)).length + 1) c st)
          { visited := [], visiting := [], sorted := [] }).sorted from rfl]
    rw [List.flatMap_append]
    simp only [List.append_eq, List.cons_append, List.nil_append, List.append_nil, concatAll,
      concatAll_append, String.append_empty, String.append_assoc]

/-! ## Claim C1 — dependencies precede dependents on acyclic graphs -/

theorem visit_acyclic (regularFiles : List ReqFile) (rank : String → Nat)
    (hacyc : ∀ n ∈ graphKeys regularFiles, ∀ d ∈ graphDeps regularFiles n, rank d < rank n) :
    ∀ (fuel : Nat) (className : String) (s : SortState),
      className ∈ graphKeys regularFiles →
      sortMeasure regularFiles s ≤ fuel →
      (∀ v ∈ s.visiting, rank className < rank v) →
      ASortInv regularFiles s →
      ASortInv regularFiles (visit regularFiles fuel className s) ∧
      SortStateLe s (visit regularFiles fuel className s) ∧
      (visit regularFiles fuel className s).visiting = s.visiting ∧
      className ∈ (visit regularFiles fuel className s).visited := by
  intro fuel
  induction fuel with
  | zero =>
      intro c s hc hm hrank hinv
      exfalso
      have hcin : c ∈ s.visiting := by
        by_contra hcv
        have hmem : c ∈ (graphKeys regularFiles).filter (fun n => n ∉ s.visiting) :=
          List.mem_filter.mpr ⟨hc, by simpa using hcv⟩
        have hpos : 0 < ((graphKeys regularFiles).filter (fun n => n ∉ s.visiting)).length :=
          List.length_pos.mpr (List.ne_nil_of_mem hmem)
        unfold sortMeasure at hm
        omega
      exact absurd (hrank c hcin) (lt_irrefl _)
  | succ n ih =>
      intro c s hc hm hrank hinv
      have h1 : c ∉ s.visiting := fun hcin => absurd (hrank c hcin) (lt_irrefl _)
      by_cases h2 : c ∈ s.visited
      · rw [visit_of_mem_visited _ h1 h2]
        exact ⟨hinv, sortStateLe_refl s, rfl, h2⟩
      have hfold : ∀ (l : List String) (st : SortState),
          (∀ d ∈ l, d ∈ graphKeys regularFiles) →
          sortMeasure regularFiles st ≤ n →
          (∀ d ∈ l, ∀ v ∈ st.visiting, rank d < rank v) →
          ASortInv regularFiles st →
          ASortInv regularFiles (l.foldl (fun st dep => visit regularFiles n dep st) st) ∧
          SortStateLe st (l.foldl (fun st dep => visit regularFiles n dep st) st) ∧
          (l.foldl (fun st dep => visit regularFiles n dep st) st).visiting = st.visiting ∧
          (∀ d ∈ l, d ∈ (l.foldl (fun st dep => visit regularFiles n dep st) st).visited) := by
        intro l
        induction l with
        | nil =>
            intro st _ _ _ hstinv
            exact ⟨hstinv, sortStateLe_refl st, rfl, by simp⟩
        | cons d ds ihl =>
            intro st hdl hstm hstrank hstinv
            obtain ⟨hinv1, hle1, hvis1, hdin⟩ :=
              ih d st (hdl d (List.mem_cons_self _ _)) hstm
                (hstrank d (List.mem_cons_self _ _)) hstinv
            have hm1 : sortMeasure regularFiles (visit regularFiles n d st) ≤ n := by
              rw [sortMeasure_congr hvis1]
              exact hstm
            have hrank1 : ∀ d' ∈ ds, ∀ v ∈ (visit regularFiles n d st).visiting,
                rank d' < rank v := by
              rw [hvis1]
              exact fun d' hd' => hstrank d' (List.mem_cons_of_mem _ hd')
            obtain ⟨hinv2, hle2, hvis2, hdeps2⟩ :=
              ihl (visit regularFiles n d st)
                (fun d' hd' => hdl d' (List.mem_cons_of_mem _ hd')) hm1 hrank1 hinv1
            rw [List.foldl_cons]
            refine ⟨hinv2, sortStateLe_trans hle1 hle2, by rw [hvis2, hvis1], ?_⟩
            intro d' hd'
            rcases List.mem_cons.mp hd' with heq | hd'
            · subst heq
              exact sortStateLe_mem_visited hle2 hdin
            · exact hdeps2 d' hd'
      have hm1 : sortMeasure regularFiles { s with visiting := s.visiting ++ [c] } ≤ n := by
        have hlt := length_filter_visited_lt (U := graphKeys regularFiles)
          (v := s.visiting) hc h1
        unfold sortMeasure at hm ⊢
        simp only at hlt ⊢
        omega
      have hrank1 : ∀ d ∈ graphDeps regularFiles c,
          ∀ v ∈ ({ s with visiting := s.visiting ++ [c] } : SortState).visiting,
            rank d < rank v := by
        intro d hd v hv
        have hdc : rank d < rank c := hacyc c hc d hd
        rcases List.mem_append.mp hv with h | h
        · exact lt_trans hdc (hrank v h)
        · rw [List.mem_singleton.mp h]
          exact hdc
      obtain ⟨hinv2, hle2, hvis2, hdeps2⟩ :=
        hfold (graphDeps regularFiles c) { s with visiting := s.visiting ++ [c] }
          (fun d hd => graphDeps_subset_keys hd) hm1 hrank1 hinv
      obtain ⟨file, hlf⟩ := lookupFile_isSome_of_mem (mem_graphKeys.mp hc)
      obtain ⟨hfR, hfname⟩ := lookupFile_some hlf
      rw [visit_main n h1 h2]
      simp only [hlf]
      have herase : (((graphDeps regularFiles c).foldl
          (fun st dep => visit regularFiles n dep st)
          { s with visiting := s.visiting ++ [c] }).visiting).erase c = s.visiting := by
        rw [hvis2]
        exact erase_append_singleton h1
      obtain ⟨⟨tv, htv⟩, ⟨ts, hts⟩⟩ := hle2
      refine ⟨⟨?_, ?_⟩, ⟨⟨tv ++ [c], ?_⟩, ⟨ts ++ [file], ?_⟩⟩, herase, by simp⟩
      · intro x hx
        rcases List.mem_append.mp hx with h | h
        · obtain ⟨g, hg, hgname⟩ := hinv2.1 x h
          exact ⟨g, List.mem_append.mpr (Or.inl hg), hgname⟩
        · rw [List.mem_singleton.mp h]
          exact ⟨file, List.mem_append.mpr (Or.inr (by simp)), hfname⟩
      · intro j hj d hd
        by_cases hjlen : j < (((graphDeps regularFiles c).foldl
            (fun st dep => visit regularFiles n dep st)
            { s with visiting := s.visiting ++ [c] }).sorted).length
        · have hget : ((((graphDeps regularFiles c).foldl
              (fun st dep => visit regularFiles n dep st)
              { s with visiting := s.visiting ++ [c] }).sorted) ++ [file])[j] =
              (((graphDeps regularFiles c).foldl
              (fun st dep => visit regularFiles n dep st)
              { s with visiting := s.visiting ++ [c] }).sorted)[j] :=
            List.getElem_append_left hjlen
          rw [hget] at hd
          obtain ⟨i, hij, hi, hiname⟩ := hinv2.2 j hjlen d hd
          refine ⟨i, hij, ?_, ?_⟩
          · rw [List.length_append]
            omega
          · rw [List.getElem_append_left hi]
            exact hiname
        · have hjeq : j = (((graphDeps regularFiles c).foldl
              (fun st dep => visit regularFiles n dep st)
              { s with visiting := s.visiting ++ [c] }).sorted).length := by
            rw [List.length_append] at hj
            simp only [List.length_singleton] at hj
            omega
          have hget : ((((graphDeps regularFiles c).foldl
              (fun st dep => visit regularFiles n dep st)
              { s with visiting := s.visiting ++ [c] }).sorted) ++ [file])[j] = file := by
            rw [List.getElem_append_right (le_of_eq hjeq.symm)]
            simp [hjeq]
          rw [hget] at hd
          rw [hfname] at hd
          have hdvis : d ∈ ((graphDeps regularFiles c).foldl
              (fun st dep => visit regularFiles n dep st)
              { s with visiting := s.visiting ++ [c] }).visited := hdeps2 d hd
          obtain ⟨g, hg, hgname⟩ := hinv2.1 d hdvis
          obtain ⟨i, hi, hig⟩ := List.mem_iff_getElem.mp hg
          refine ⟨i, by omega, ?_, ?_⟩
          · rw [List.length_append]
            omega
          · rw [List.getElem_append_left hi, hig]
            exact hgname
      · show _ ++ [c] = s.visited ++ (tv ++ [c])
        rw [htv]
        simp
      · show _ ++ [file] = s.sorted ++ (ts ++ [file])
        rw [hts]
        simp

theorem visit_stateLe (regularFiles : List ReqFile) :
    ∀ (fuel : Nat) (className : String) (s : SortState),
      SortStateLe s (visit regularFiles fuel className s) := by
  intro fuel
  induction fuel with
  | zero => intro c s; exact sortStateLe_refl s
  | succ n ih =>
      intro c s
      by_cases h1 : c ∈ s.visiting
      · rw [visit_of_mem_visiting _ h1]
        exact sortStateLe_refl s
      by_cases h2 : c ∈ s.visited
      · rw [visit_of_mem_visited _ h1 h2]
        exact sortStateLe_refl s
      have hfold : ∀ (l : List String) (st : SortState),
          SortStateLe st (l.foldl (fun st dep => visit regularFiles n dep st) st) := by
        intro l
        induction l with
        | nil => intro st; exact sortStateLe_refl st
        | cons d ds ihl =>
            intro st
            rw [List.foldl_cons]
            exact sortStateLe_trans (ih d st) (ihl (visit regularFiles n d st))
      have hle1 : SortStateLe s { s with visiting := s.visiting ++ [c] } :=
        ⟨⟨[], by simp⟩, ⟨[], by simp⟩⟩
      have hle2 := hfold (graphDeps regularFiles c) { s with visiting := s.visiting ++ [c] }
      rw [visit_main n h1 h2]
      cases hlf : lookupFile regularFiles c with
      | some file =>
          simp only [hlf]
          refine sortStateLe_trans (sortStateLe_trans hle1 hle2) ⟨⟨[c], rfl⟩, ⟨[file], rfl⟩⟩
      | none =>
          simp only [hlf]
          refine sortStateLe_trans (sortStateLe_trans hle1 hle2) ⟨⟨[c], rfl⟩, ⟨[], by simp⟩⟩

theorem foldl_visit_stateLe (regularFiles : List ReqFile) (F : Nat) :
    ∀ (l : List String) (s : SortState),
      SortStateLe s (l.foldl (fun st c => visit regularFiles F c st) s) := by
  intro l
  induction l with
  | nil => intro s; exact sortStateLe_refl s
  | cons c cs ih =>
      intro s
      rw [List.foldl_cons]
      exact sortStateLe_trans (visit_stateLe regularFiles F c s)
        (ih (visit regularFiles F c s))

theorem foldl_visit_acyclic (regularFiles : List ReqFile) (rank : String → Nat)
    (hacyc : ∀ n ∈ graphKeys regularFiles, ∀ d ∈ graphDeps regularFiles n, rank d < rank n)
    (F : Nat) :
    ∀ (l : List String) (s : SortState),
      (∀ d ∈ l, d ∈ graphKeys regularFiles) →
      sortMeasure regularFiles s ≤ F →
      (∀ d ∈ l, ∀ v ∈ s.visiting, rank d < rank v) →
      ASortInv regularFiles s →
      ASortInv regularFiles (l.foldl (fun st c => visit regularFiles F c st) s) ∧
      (l.foldl (fun st c => visit regularFiles F c st) s).visiting = s.visiting ∧
      (∀ d ∈ l, d ∈ (l.foldl (fun st c => visit regularFiles F c st) s).visited) := by
  intro l
  induction l with
  | nil =>
      intro s _ _ _ hinv
      exact ⟨hinv, rfl, by simp⟩
  | cons c cs ih =>
      intro s hl hm hrank hinv
      obtain ⟨hinv1, hle1, hvis1, hcin⟩ :=
        visit_acyclic regularFiles rank hacyc F c s (hl c (List.mem_cons_self _ _)) hm
          (hrank c (List.mem_cons_self _ _)) hinv
      have hm1 : sortMeasure regularFiles (visit regularFiles F c s) ≤ F := by
        rw [sortMeasure_congr hvis1]
        exact hm
      have hrank1 : ∀ d ∈ cs, ∀ v ∈ (visit regularFiles F c s).visiting, rank d < rank v := by
        rw [hvis1]
        exact fun d hd => hrank d (List.mem_cons_of_mem _ hd)
      obtain ⟨hinv2, hvis2, hall2⟩ :=
        ih (visit regularFiles F c s) (fun d hd => hl d (List.mem_cons_of_mem _ hd)) hm1
          hrank1 hinv1
      rw [List.foldl_cons]
      refine ⟨hinv2, by rw [hvis2, hvis1], ?_⟩
      intro d hd
      rcases List.mem_cons.mp hd with heq | hd
      · subst heq
        exact sortStateLe_mem_visited
          (foldl_visit_stateLe regularFiles F cs (visit regularFiles F d s)) hcin
      · exact hall2 d hd

/-- C1: on an input of RequiredFiles (the sorter's specified input has
core files excluded and, per the data-model invariant, one file per
qualified name) whose dependency graph restricted to names present in the
list is acyclic — witnessed by a rank function that strictly decreases
along present dependency edges — the sorter's output places every file
strictly after every file it depends on: whenever `g`'s class name occurs
among `f`'s dependencies, `g` appears at a strictly earlier output
position than `f`. -/
theorem c1_sorter_orders_dependencies (files : List ReqFile) (rank : String → Nat)
    (hcore : ∀ f ∈ files, f.isCore = false)
    (hnodup : (files.map (fun f => f.className)).Nodup)
    (hacyc : ∀ n ∈ graphKeys files, ∀ d ∈ graphDeps files n, rank d < rank n) :
    ∀ f ∈ files, ∀ g ∈ files, g.className ∈ f.dependencies →
      ∃ i j, ∃ hi : i < (topologicalSortRequired files).length,
        ∃ hj : j < (topologicalSortRequired files).length,
          i < j ∧ (topologicalSortRequired files)[i] = g ∧
          (topologicalSortRequired files)[j] = f := by
  have hRfiles : files.filter (fun f => !f.isCore) = files :=
    List.filter_eq_self.mpr (fun a ha => by simp [hcore a ha])
  have hCfiles : files.filter (fun f => f.isCore) = [] :=
    List.filter_eq_nil_iff.mpr (fun a ha => by simp [hcore a ha])
  have hout : topologicalSortRequired files =
      ((graphKeys files).foldl (fun st c => visit files (files.length + 1) c st)
        { visited := [], visiting := [], sorted := [] }).sorted := by
    show sortByPriority (files.filter (fun f => f.isCore)) ++
        ((graphKeys (files.filter (fun f => !f.isCore))).foldl
          (fun st c => visit (files.filter (fun f => !f.isCore))
            ((files.filter (fun f => !f.isCore)).length + 1) c st)
          { visited := [], visiting := [], sorted := [] }).sorted = _
    rw [hRfiles, hCfiles]
    rfl
  have hminit : sortMeasure files { visited := [], visiting := [], sorted := [] } ≤
      files.length + 1 := by
    show (((dedupKeepFirst (files.map (fun f => f.className)))).filter
      (fun n => n ∉ ([] : List String))).length ≤ _
    have h1 := List.length_filter_le (fun n => decide (n ∉ ([] : List String)))
      (dedupKeepFirst (files.map (fun f => f.className)))
    have h2 := length_dedupKeepFirst_le (files.map (fun f => f.className))
    rw [List.length_map] at h2
    omega
  obtain ⟨hAinv, hAvis, hAall⟩ :=
    foldl_visit_acyclic files rank hacyc (files.length + 1) (graphKeys files)
      { visited := [], visiting := [], sorted := [] } (fun d hd => hd) hminit
      (fun d _ v hv => absurd hv (List.not_mem_nil v))
      ⟨fun n hn => absurd hn (List.not_mem_nil n),
       fun j hj => absurd hj (Nat.not_lt_zero j)⟩
  obtain ⟨hGinv, _, _, _⟩ :=
    foldl_visit_general files (files.length + 1) (graphKeys files)
      { visited := [], visiting := [], sorted := [] } (fun d hd => hd) hminit
      ⟨List.nodup_nil, by simp, by simp, by simp⟩
  intro f hf g hg hdep
  have hfk : f.className ∈ graphKeys files := mem_graphKeys.mpr ⟨f, hf, rfl⟩
  have hfv : f.className ∈ ((graphKeys files).foldl
      (fun st c => visit files (files.length + 1) c st)
      { visited := [], visiting := [], sorted := [] }).visited := hAall _ hfk
  obtain ⟨gf, hgf, hgfname⟩ := hAinv.1 _ hfv
  have hgffiles : gf ∈ files := hGinv.2.2.2 gf hgf
  have hgfeq : gf = f := List.inj_on_of_nodup_map hnodup hgffiles hf hgfname
  obtain ⟨j, hj, hjget⟩ := List.mem_iff_getElem.mp (hgfeq ▸ hgf)
  have hdepG : g.className ∈ graphDeps files f.className := by
    unfold graphDeps
    rw [mem_dedupKeepFirst, List.mem_filter]
    constructor
    · exact List.mem_flatMap.mpr ⟨f, List.mem_filter.mpr ⟨hf, by simp⟩, hdep⟩
    · exact List.any_eq_true.mpr ⟨g, hg, by simp⟩
  have hd2 : g.className ∈ graphDeps files ((((graphKeys files).foldl
      (fun st c => visit files (files.length + 1) c st)
      { visited := [], visiting := [], sorted := [] }).sorted)[j].className) := by
    rw [hjget]
    exact hdepG
  obtain ⟨i, hij, hi, hiname⟩ := hAinv.2 j hj _ hd2
  have hielem : (((graphKeys files).foldl
      (fun st c => visit files (files.length + 1) c st)
      { visited := [], visiting := [], sorted := [] }).sorted)[i] ∈
      ((graphKeys files).foldl
      (fun st c => visit files (files.length + 1) c st)
      { visited := [], visiting := [], sorted := [] }).sorted := List.getElem_mem hi
  have hifiles := hGinv.2.2.2 _ hielem
  have hieq : (((graphKeys files).foldl
      (fun st c => visit files (files.length + 1) c st)
      { visited := [], visiting := [], sorted := [] }).sorted)[i] = g :=
    List.inj_on_of_nodup_map hnodup hifiles hg hiname
  rw [hout]
  exact ⟨i, j, hi, hj, hij, hieq, hjget⟩

/-- C1 (witness): the theorem applied to the acyclic trio
`A → {B, C}`, `B → C`, `C → ∅` with the rank `A ↦ 2, B ↦ 1, _ ↦ 0`,
instantiated at the dependent `A` and its dependency `B`. -/
theorem c1_sorter_orders_dependencies_witness :
    (∀ f ∈ [sampleA, sampleB, sampleC], f.isCore = false) ∧
    (([sampleA, sampleB, sampleC].map (fun f => f.className)).Nodup) ∧
    (∀ n ∈ graphKeys [sampleA, sampleB, sampleC],
      ∀ d ∈ graphDeps [sampleA, sampleB, sampleC] n,
        (fun s => if s = "A" then 2 else if s = "B" then 1 else 0) d <
        (fun s => if s = "A" then 2 else if s = "B" then 1 else 0) n) ∧
    sampleA ∈ [sampleA, sampleB, sampleC] ∧
    sampleB ∈ [sampleA, sampleB, sampleC] ∧
    sampleB.className ∈ sampleA.dependencies ∧
    (∃ i j, ∃ hi : i < (topologicalSortRequired [sampleA, sampleB, sampleC]).length,
      ∃ hj : j < (topologicalSortRequired [sampleA, sampleB, sampleC]).length,
        i < j ∧ (topologicalSortRequired [sampleA, sampleB, sampleC])[i] = sampleB ∧
        (topologicalSortRequired [sampleA, sampleB, sampleC])[j] = sampleA) :=
  ⟨by decide, by decide, by decide, by decide, by decide, by decide,
    c1_sorter_orders_dependencies [sampleA, sampleB, sampleC]
      (fun s => if s = "A" then 2 else if s = "B" then 1 else 0)
      (by decide) (by decide) (by decide)
      sampleA (by decide) sampleB (by decide) (by decide)⟩

end CustomBuild
